import Mathlib

/-!
# Verification of the OKI component-storage core

Shallow embedding of the OKI ECS core (RonanOkinaka/OKI) in Lean 4, with
theorems settling the frozen claims about:

* `AssocSortedVector` (src/oki/util/oki_container.h) — the Sorted Association
  Table: a dense sequence of (key, value) pairs kept strictly increasing by
  key.  Keys are entity handles (unsigned integers), modelled as `Nat`;
  values are an arbitrary type parameter `V`.
* `variadic_set_intersection` (src/oki/util/oki_container.h) — the k-way
  sorted-intersection ("merge join") algorithm.
* The handle generators (src/oki/util/oki_handle_gen.h).
* The type-erasure operation tables (src/oki/util/oki_type_erasure.h).
* The `ComponentManager` (src/oki/oki_component.h).

C++ iterators over `std::vector` are modelled by list suffixes; a
`(first, second)` iterator pair becomes the suffix starting at `first`.
`std::lower_bound` on a range sorted by key is modelled by the
`takeWhile`/`dropWhile` split at the first element whose key is not less
than the probe — extensionally what binary search returns on the sorted
ranges the container maintains.  Functions that in C++ return an iterator
plus mutate the container in place are modelled as returning the new list
together with the other outputs.
-/

namespace Oki

/-! ## The Sorted Association Table: `AssocSortedVector`

The C++ class stores `std::vector<std::pair<Key, Type>> data_`.  We model a
table as `List (Nat × V)`.  The class invariant (spec §3, claim C2) is that
the key sequence is strictly increasing. -/

/-- The `AssocSortedVector` invariant: keys strictly increase along `data_`
(hence no duplicate keys). -/
def SortedKeys {V : Type} (l : List (Nat × V)) : Prop :=
  List.Pairwise (fun p q : Nat × V => p.1 < q.1) l

instance {V : Type} (l : List (Nat × V)) : Decidable (SortedKeys l) :=
  List.instDecidablePairwise l

/-- Model of the private `try_insert_impl_<ASSIGN>(key, args)`.

The C++ does `iter = find_key_(key)` (a `std::lower_bound` by key: the first
position whose key is not `< key`, modelled by the `dropWhile` split), then
`check_key_iter_` (iterator not at end, key at it equal to `key`).  If the
key is present it does not insert — under `ASSIGN` it assigns the payload at
`iter` — and reports `false`; otherwise it emplaces at `iter` and reports
`true`.

Returned tuple: (new `data_`, the `mapped_type` value at the returned
iterator, the `bool` of the returned pair). -/
def try_insert_impl_ {V : Type} (assign : Bool) (key : Nat) (v : V)
    (l : List (Nat × V)) : List (Nat × V) × V × Bool :=
  match l.dropWhile (fun p => decide (p.1 < key)) with
  | [] => (l.takeWhile (fun p => decide (p.1 < key)) ++ [(key, v)], v, true)
  | q :: rest =>
      if q.1 = key then
        (if assign then
          (l.takeWhile (fun p => decide (p.1 < key)) ++ (key, v) :: rest, v, false)
        else (l, q.2, false))
      else
        (l.takeWhile (fun p => decide (p.1 < key)) ++ (key, v) :: q :: rest,
         v, true)

/-- Model of `AssocSortedVector::emplace(key, args...)`.

The C++ first checks the fast path `begin == end || data_.back().first < key`
and appends at the end; otherwise it falls back to `try_insert_impl_<false>`. -/
def emplace {V : Type} (key : Nat) (v : V) (l : List (Nat × V)) :
    List (Nat × V) × V × Bool :=
  match l.getLast? with
  | none => (l ++ [(key, v)], v, true)
  | some p =>
      if p.1 < key then (l ++ [(key, v)], v, true)
      else try_insert_impl_ false key v l

/-- Model of `AssocSortedVector::insert(key, value)`: delegates to `emplace`. -/
def insert {V : Type} (key : Nat) (v : V) (l : List (Nat × V)) :
    List (Nat × V) × V × Bool :=
  emplace key v l

/-- Model of `AssocSortedVector::insert_or_assign(key, value)`: delegates to
`try_insert_impl_<true>`. -/
def insert_or_assign {V : Type} (key : Nat) (v : V) (l : List (Nat × V)) :
    List (Nat × V) × V × Bool :=
  try_insert_impl_ true key v l

/-- Model of `AssocSortedVector::erase(key)`: `find_key_` then
`check_key_iter_`; erases the element when found.  Returns the new `data_`
and the `bool` result. -/
def erase {V : Type} (key : Nat) (l : List (Nat × V)) :
    List (Nat × V) × Bool :=
  match l.dropWhile (fun p => decide (p.1 < key)) with
  | [] => (l, false)
  | q :: rest =>
      if q.1 = key then (l.takeWhile (fun p => decide (p.1 < key)) ++ rest, true)
      else (l, false)

/-- Model of `AssocSortedVector::find(key)` (const): `find_key_` then
`check_key_iter_`; yields the mapped value at the iterator when the key is
present, `cend()` becoming `none`. -/
def find {V : Type} (key : Nat) (l : List (Nat × V)) : Option V :=
  match l.dropWhile (fun p => decide (p.1 < key)) with
  | [] => none
  | q :: _ => if q.1 = key then some q.2 else none

/-- Model of `AssocSortedVector::contains(key)`. -/
def contains {V : Type} (key : Nat) (l : List (Nat × V)) : Bool :=
  match l.dropWhile (fun p => decide (p.1 < key)) with
  | [] => false
  | q :: _ => q.1 = key

/-- The key sequence of a table. -/
def keysOf {V : Type} (l : List (Nat × V)) : List Nat := l.map Prod.fst

section TableLemmas

variable {V : Type}

theorem dropWhile_head_false {p : V → Bool} :
    ∀ {l : List V} {a : V} {rest : List V},
      l.dropWhile p = a :: rest → p a = false := by
  intro l
  induction l with
  | nil => intro a rest h; simp [List.dropWhile] at h
  | cons x t ih =>
      intro a rest h
      rw [List.dropWhile_cons] at h
      by_cases hx : p x = true
      · rw [if_pos hx] at h; exact ih h
      · rw [if_neg hx] at h
        injection h with h1 _
        subst h1
        simpa using hx

theorem dropWhile_append_head {p : V → Bool} {a : V} :
    ∀ {u rest : List V}, (∀ x ∈ u, p x = true) → p a = false →
      (u ++ a :: rest).dropWhile p = a :: rest := by
  intro u
  induction u with
  | nil => intro rest _ ha; simp [List.dropWhile_cons, ha]
  | cons x t ih =>
      intro rest hpre ha
      have hx : p x = true := hpre x (by simp)
      rw [List.cons_append, List.dropWhile_cons, if_pos hx]
      exact ih (fun y hy => hpre y (by simp [hy])) ha

/-- Keys at the head of the `dropWhile (·.1 < k)` suffix are `≥ k`. -/
theorem dropWhile_head_ge {k : Nat} {l : List (Nat × V)} {q : Nat × V}
    {rest : List (Nat × V)}
    (h : l.dropWhile (fun p => decide (p.1 < k)) = q :: rest) :
    k ≤ q.1 := by
  have := dropWhile_head_false h
  simp at this
  omega

/-- Every k in the `takeWhile (·.1 < k)` prefix is `< k`. -/
theorem takeWhile_keys_lt {k : Nat} {l : List (Nat × V)} {x : Nat × V}
    (hx : x ∈ l.takeWhile (fun p => decide (p.1 < k))) : x.1 < k := by
  have := List.mem_takeWhile_imp hx
  simpa using this

/-- Assembling a sorted table around a fresh k: prefix strictly below
`k`, suffix strictly above. -/
theorem sortedKeys_glue {u t : List (Nat × V)} {k : Nat} {v : V}
    (hpre : SortedKeys u) (hpost : SortedKeys t)
    (h1 : ∀ p ∈ u, p.1 < k) (h2 : ∀ p ∈ t, k < p.1) :
    SortedKeys (u ++ (k, v) :: t) := by
  unfold SortedKeys at *
  rw [List.pairwise_append]
  refine ⟨hpre, List.pairwise_cons.mpr ⟨fun q hq => h2 q hq, hpost⟩, ?_⟩
  intro p hp b hb
  rcases List.mem_cons.mp hb with rfl | hb'
  · simpa using h1 p hp
  · exact lt_trans (h1 p hp) (h2 b hb')

/-- The `takeWhile`/`dropWhile` split of a sorted table, spelled out. -/
theorem sorted_split {k : Nat} {l : List (Nat × V)} (hs : SortedKeys l) :
    SortedKeys (l.takeWhile (fun p => decide (p.1 < k)))
    ∧ SortedKeys (l.dropWhile (fun p => decide (p.1 < k)))
    ∧ (∀ p ∈ l.takeWhile (fun p => decide (p.1 < k)),
        ∀ q ∈ l.dropWhile (fun p => decide (p.1 < k)), p.1 < q.1) := by
  have hsplit := List.takeWhile_append_dropWhile
    (p := fun p : Nat × V => decide (p.1 < k)) (l := l)
  unfold SortedKeys at hs
  rw [← hsplit, List.pairwise_append] at hs
  exact ⟨hs.1, hs.2.1, hs.2.2⟩

/-- In a sorted table, every element of the `dropWhile (·.1 < k)` suffix
beyond a head that is not `k` has k strictly above `k`. -/
theorem dropWhile_all_gt {k : Nat} {l : List (Nat × V)} {q : Nat × V}
    {rest : List (Nat × V)} (hs : SortedKeys l)
    (h : l.dropWhile (fun p => decide (p.1 < k)) = q :: rest)
    (hqne : q.1 ≠ k) :
    ∀ p ∈ l.dropWhile (fun p => decide (p.1 < k)), k < p.1 := by
  have hq := dropWhile_head_ge h
  have hpost := (sorted_split (k := k) hs).2.1
  rw [h] at hpost ⊢
  intro p hp
  rcases List.mem_cons.mp hp with rfl | hp'
  · omega
  · have : q.1 < p.1 := List.rel_of_pairwise_cons hpost hp'
    omega

/-- In a sorted table, the elements of `rest` (after the head of the
`dropWhile` suffix) have keys strictly above the head's k. -/
theorem dropWhile_rest_gt {k : Nat} {l : List (Nat × V)} {q : Nat × V}
    {rest : List (Nat × V)} (hs : SortedKeys l)
    (h : l.dropWhile (fun p => decide (p.1 < k)) = q :: rest) :
    ∀ p ∈ rest, q.1 < p.1 := by
  have hpost := (sorted_split (k := k) hs).2.1
  rw [h] at hpost
  exact fun p hp => List.rel_of_pairwise_cons hpost hp

/-- The `try_insert_impl_` preserves the strict-sortedness invariant. -/
theorem try_insert_impl_sorted {assign : Bool} {k : Nat} {v : V}
    {l : List (Nat × V)} (hs : SortedKeys l) :
    SortedKeys (try_insert_impl_ assign k v l).1 := by
  rcases hpost : l.dropWhile (fun p => decide (p.1 < k)) with _ | ⟨q, rest⟩
  · simp only [try_insert_impl_, hpost]
    have := sortedKeys_glue (t := ([] : List (Nat × V))) (k := k) (v := v)
      (sorted_split (k := k) hs).1 List.Pairwise.nil
      (fun p hp => takeWhile_keys_lt hp) (by intro p hp; simp at hp)
    simpa using this
  · simp only [try_insert_impl_, hpost]
    by_cases hq : q.1 = k
    · rw [if_pos hq]
      cases assign with
      | false => simpa using hs
      | true =>
          simp only [if_pos rfl]
          refine sortedKeys_glue (sorted_split (k := k) hs).1 ?_
            (fun p hp => takeWhile_keys_lt hp) ?_
          · have := (sorted_split (k := k) hs).2.1
            rw [hpost] at this
            exact (List.pairwise_cons.mp this).2
          · intro p hp
            have := dropWhile_rest_gt hs hpost p hp
            omega
    · rw [if_neg hq]
      refine sortedKeys_glue (sorted_split (k := k) hs).1 ?_
        (fun p hp => takeWhile_keys_lt hp) ?_
      · have := (sorted_split (k := k) hs).2.1
        rw [hpost] at this
        exact this
      · intro p hp
        exact dropWhile_all_gt hs hpost hq p (by rw [hpost]; exact hp)

theorem sortedKeys_append_single {l : List (Nat × V)} {k : Nat} {v : V}
    (hs : SortedKeys l) (hmax : ∀ p ∈ l, p.1 < k) :
    SortedKeys (l ++ [(k, v)]) := by
  have := sortedKeys_glue (t := ([] : List (Nat × V))) (k := k) (v := v)
    hs List.Pairwise.nil hmax (by intro p hp; simp at hp)
  simpa using this

/-- In a sorted table the last element carries the maximal k. -/
theorem getLast_mem_max {l : List (Nat × V)} {q : Nat × V}
    (hs : SortedKeys l) (hq : l.getLast? = some q) :
    ∀ p ∈ l, p.1 ≤ q.1 := by
  induction l with
  | nil => simp at hq
  | cons a t ih =>
      cases t with
      | nil =>
          simp at hq
          intro p hp
          rcases List.mem_singleton.mp hp with rfl
          simp [hq]
      | cons b t' =>
          rw [List.getLast?_cons_cons] at hq
          have hs' : SortedKeys (b :: t') := (List.pairwise_cons.mp hs).2
          have ihq := ih hs' hq
          intro p hp
          rcases List.mem_cons.mp hp with rfl | hp'
          · have hqmem : q ∈ b :: t' := by
              have := List.getLast?_eq_getLast (b :: t') (by simp)
              rw [this] at hq
              injection hq with h
              rw [← h]
              exact List.getLast_mem _
            have : p.1 < q.1 :=
              List.rel_of_pairwise_cons hs hqmem
            omega
          · exact ihq p hp'

/-- The `emplace` preserves the strict-sortedness invariant. -/
theorem emplace_sorted {k : Nat} {v : V} {l : List (Nat × V)}
    (hs : SortedKeys l) : SortedKeys (emplace k v l).1 := by
  rcases hlast : l.getLast? with _ | p
  · simp only [emplace, hlast]
    have : l = [] := by
      cases l with
      | nil => rfl
      | cons a t => rw [List.getLast?_eq_getLast _ (by simp)] at hlast; simp at hlast
    subst this
    simp only [List.nil_append]
    exact List.pairwise_singleton _ _
  · simp only [emplace, hlast]
    by_cases hp : p.1 < k
    · rw [if_pos hp]
      refine sortedKeys_append_single hs ?_
      intro q hq
      exact lt_of_le_of_lt (getLast_mem_max hs hlast q hq) hp
    · rw [if_neg hp]
      exact try_insert_impl_sorted hs

/-- The `insert_or_assign` preserves the strict-sortedness invariant. -/
theorem insert_or_assign_sorted {k : Nat} {v : V} {l : List (Nat × V)}
    (hs : SortedKeys l) : SortedKeys (insert_or_assign k v l).1 :=
  try_insert_impl_sorted hs

/-- The `insert` preserves the strict-sortedness invariant. -/
theorem insert_sorted {k : Nat} {v : V} {l : List (Nat × V)}
    (hs : SortedKeys l) : SortedKeys (insert k v l).1 :=
  emplace_sorted hs

/-- The `erase` preserves the strict-sortedness invariant. -/
theorem erase_sorted {k : Nat} {l : List (Nat × V)}
    (hs : SortedKeys l) : SortedKeys (erase k l).1 := by
  rcases hpost : l.dropWhile (fun p => decide (p.1 < k)) with _ | ⟨q, rest⟩
  · simp only [erase, hpost]
    exact hs
  · simp only [erase, hpost]
    by_cases hq : q.1 = k
    · rw [if_pos hq]
      unfold SortedKeys
      rw [List.pairwise_append]
      have hsp := sorted_split (k := k) hs
      refine ⟨hsp.1, ?_, ?_⟩
      · have := hsp.2.1
        rw [hpost] at this
        exact (List.pairwise_cons.mp this).2
      · intro a ha b hb
        exact hsp.2.2 a ha b (by rw [hpost]; simp [hb])
    · rw [if_neg hq]
      exact hs

/-- An element failing the predicate survives into the `dropWhile` suffix. -/
theorem mem_dropWhile_of_not_pred {p : (Nat × V) → Bool} {l : List (Nat × V)}
    {x : Nat × V} (hx : x ∈ l) (hpx : p x = false) : x ∈ l.dropWhile p := by
  have hsplit := List.takeWhile_append_dropWhile (p := p) (l := l)
  rw [← hsplit] at hx
  rcases List.mem_append.mp hx with h | h
  · exact absurd (List.mem_takeWhile_imp h) (by simp [hpx])
  · exact h

/-- In a sorted table containing `(k, w)`, the `lower_bound` probe lands
exactly on that pair. -/
theorem dropWhile_at_key {k : Nat} {w : V} {l : List (Nat × V)}
    (hs : SortedKeys l) (hw : (k, w) ∈ l) :
    ∃ rest, l.dropWhile (fun p => decide (p.1 < k)) = (k, w) :: rest := by
  have hmem : (k, w) ∈ l.dropWhile (fun p => decide (p.1 < k)) :=
    mem_dropWhile_of_not_pred hw (by simp)
  rcases hpost : l.dropWhile (fun p => decide (p.1 < k)) with _ | ⟨q, rest⟩
  · rw [hpost] at hmem; simp at hmem
  · rw [hpost] at hmem
    rcases List.mem_cons.mp hmem with h | h
    · exact ⟨rest, by rw [hpost, ← h]⟩
    · have h1 := dropWhile_rest_gt hs hpost _ h
      have h2 := dropWhile_head_ge hpost
      simp at h1
      omega

/-- The `find` locates a pair present in a sorted table. -/
theorem find_of_mem {k : Nat} {w : V} {l : List (Nat × V)}
    (hs : SortedKeys l) (hw : (k, w) ∈ l) : find k l = some w := by
  rcases dropWhile_at_key hs hw with ⟨rest, hrest⟩
  simp [find, hrest]

/-- The `find` only returns pairs of the table. -/
theorem mem_of_find {k : Nat} {w : V} {l : List (Nat × V)}
    (h : find k l = some w) : (k, w) ∈ l := by
  rcases hpost : l.dropWhile (fun p => decide (p.1 < k)) with _ | ⟨q, rest⟩
  · simp only [find, hpost] at h
    exact Option.noConfusion h
  · simp only [find, hpost] at h
    by_cases hq : q.1 = k
    · rw [if_pos hq] at h
      injection h with h2
      have hqm : q ∈ l := (List.dropWhile_sublist _).mem (by rw [hpost]; simp)
      have hqq : q = (k, w) := Prod.ext hq h2
      rwa [hqq] at hqm
    · rw [if_neg hq] at h; simp at h

/-- Claim C3, checked-bind half, at the container level: `emplace` on a k
that is already present returns the old payload, reports `false`, and leaves
`data_` untouched. -/
theorem emplace_existing {k : Nat} {v w : V} {l : List (Nat × V)}
    (hs : SortedKeys l) (hw : (k, w) ∈ l) :
    emplace k v l = (l, w, false) := by
  have hne : l ≠ [] := by rintro rfl; simp at hw
  rcases hlast : l.getLast? with _ | p
  · rw [List.getLast?_eq_getLast _ hne] at hlast; simp at hlast
  · simp only [emplace, hlast]
    have hple : k ≤ p.1 := by
      have : p ∈ l := by
        have := List.getLast?_eq_getLast _ hne
        rw [this] at hlast
        injection hlast with h
        rw [← h]
        exact List.getLast_mem _
      exact getLast_mem_max hs hlast (k, w) hw
    rw [if_neg (by omega)]
    rcases dropWhile_at_key hs hw with ⟨rest, hrest⟩
    simp [try_insert_impl_, hrest]

/-- Claim C3, assign half, at the container level: `insert_or_assign` on a
k already present overwrites the payload in place, reports `false`, and
neither adds nor removes an entry (the k sequence is unchanged). -/
theorem insert_or_assign_existing {k : Nat} {v w : V} {l : List (Nat × V)}
    (hs : SortedKeys l) (hw : (k, w) ∈ l) :
    (insert_or_assign k v l).2.2 = false
    ∧ find k (insert_or_assign k v l).1 = some v
    ∧ keysOf (insert_or_assign k v l).1 = keysOf l := by
  rcases dropWhile_at_key hs hw with ⟨rest, hrest⟩
  have hsplit := List.takeWhile_append_dropWhile
    (p := fun p : Nat × V => decide (p.1 < k)) (l := l)
  rw [hrest] at hsplit
  have hred : insert_or_assign k v l =
      (l.takeWhile (fun p => decide (p.1 < k)) ++ (k, v) :: rest, v, false) := by
    simp [insert_or_assign, try_insert_impl_, hrest]
  rw [hred]
  have hdw : (l.takeWhile (fun p => decide (p.1 < k)) ++ (k, v) :: rest).dropWhile
      (fun p : Nat × V => decide (p.1 < k)) = (k, v) :: rest :=
    dropWhile_append_head (p := fun p : Nat × V => decide (p.1 < k))
      (by intro x hx; simpa using takeWhile_keys_lt hx) (by simp)
  refine ⟨rfl, ?_, ?_⟩
  · simp only [find, hdw]
    simp
  · conv_rhs => rw [← hsplit]
    simp [keysOf]

end TableLemmas

/-! ## The intersection query engine: `variadic_set_intersection`

Model of `oki::intl_::variadic_set_intersection` and its helpers
(src/oki/util/oki_container.h, lines 300–363).  The C++ is variadic over
iterator pairs of per-type containers; we model the `k` containers as a
`List` of tables (iterator pairs become list suffixes).  The callback
`func(*iterPairs.first...)` receives the pair at each cursor; we record each
invocation as the list of those pairs (one per table, in table order), so
the function returns the list of callback invocations. -/

/-- Model of `helper_::Status`; the C++ values are STOP = -1, NEW_MAX = 0,
CALL = 1, compared through `std::min`. -/
inductive Status where
  | STOP : Status
  | NEW_MAX : Status
  | CALL : Status
deriving DecidableEq, Repr

/-- The `std::min` on two `Status` values (`STOP < NEW_MAX < CALL`); the C++
takes `std::min` of the braced list of all statuses. -/
def Status.min : Status → Status → Status
  | .STOP, _ => .STOP
  | _, .STOP => .STOP
  | .NEW_MAX, _ => .NEW_MAX
  | _, .NEW_MAX => .NEW_MAX
  | .CALL, .CALL => .CALL

/-- Model of `helper_::step_iter_pair(max, pair)`: advance `pair.first` with
`std::find_if_not(..., kvPair.first < max)` (= `dropWhile`); then report
`STOP` if the cursor is exhausted, `CALL` if it sits on `max`, else raise
`max` to the cursor's key and report `NEW_MAX`.  Returns (status, new `max`,
new cursor). -/
def step_iter_pair {V : Type} (m : Nat) (c : List (Nat × V)) :
    Status × Nat × List (Nat × V) :=
  match c.dropWhile (fun p => decide (p.1 < m)) with
  | [] => (.STOP, m, [])
  | q :: rest =>
      if q.1 = m then (.CALL, m, q :: rest)
      else (.NEW_MAX, q.1, q :: rest)

/-- One pass of the loop body: the braced initializer list
`{ helper::step_iter_pair(max, iterPairs)... }` evaluates left to right with
the single shared `max`, and `std::min` folds the statuses.  Returns (folded
status, final `max`, advanced cursors). -/
def run_pass {V : Type} : Nat → List (List (Nat × V)) →
    Status × Nat × List (List (Nat × V))
  | m, [] => (.CALL, m, [])
  | m, c :: cs =>
      match step_iter_pair m c with
      | (s, m1, c1) =>
          match run_pass m1 cs with
          | (s2, m2, cs2) => (s.min s2, m2, c1 :: cs2)

/-- The `while (true)` loop of `variadic_set_intersection`, fuel-indexed
(the fuel is only a termination device; `vsi_go_spec` proves the chosen fuel
is enough for the loop to reach `STOP`).  On `CALL` the callback fires with
the pair at every cursor (recorded as `cs2.filterMap List.head?`) and every
cursor advances one step (`++iterPairs.first`). -/
def vsi_go {V : Type} : Nat → Nat → List (List (Nat × V)) →
    List (List (Nat × V)) → List (List (Nat × V))
  | 0, _, _, out => out
  | Nat.succ f, m, cs, out =>
      match run_pass m cs with
      | (.STOP, _, _) => out
      | (.NEW_MAX, m2, cs2) => vsi_go f m2 cs2 out
      | (.CALL, m2, cs2) =>
          vsi_go f m2 (cs2.map (fun c => c.drop 1))
            (out ++ [cs2.filterMap List.head?])

/-- Model of `helper_::get_first_key(pair, pairs...)`: reads
`pair.first->first` of the first iterator pair.  When the first range is
empty the C++ dereferences its end iterator (undefined behavior); the model
returns 0 there, and `vsi_go_first_table_empty` shows the loop's output does
not depend on that choice (the first pass already reports `STOP`). -/
def get_first_key {V : Type} : List (List (Nat × V)) → Nat
  | ((k, _) :: _) :: _ => k
  | _ => 0

/-- Total number of elements across all cursors. -/
def sumLens {V : Type} (cs : List (List (Nat × V))) : Nat :=
  (cs.map List.length).sum

/-- Model of `oki::intl_::variadic_set_intersection(func, iterPairs...)`:
initialize `max` from the first cursor and loop until `STOP`.  The fuel
`2 * sumLens cs + 2` is proven sufficient in `vsi_go_spec`. -/
def variadic_set_intersection {V : Type} (cs : List (List (Nat × V))) :
    List (List (Nat × V)) :=
  vsi_go (2 * sumLens cs + 2) (get_first_key cs) cs []

/-- The strictly increasing list of keys, taken from the first table, that an
intersection run starting at candidate bound `b` still has to deliver: keys
`≥ b` present in every table. -/
def interKeys {V : Type} (b : Nat) : List (List (Nat × V)) → List Nat
  | [] => []
  | c :: cs =>
      (keysOf c).filter
        (fun y => decide (b ≤ y ∧ ∀ d ∈ c :: cs, y ∈ keysOf d))

/-- The callback row for key `y`: from each table, its (unique) pair with
key `y`. -/
def rowFor {V : Type} (cs : List (List (Nat × V))) (y : Nat) :
    List (Nat × V) :=
  cs.filterMap (fun c => c.find? (fun p => decide (p.1 = y)))

/-- The key of a callback row (the key of its first pair). -/
def keyOfRow {V : Type} (r : List (Nat × V)) : Nat :=
  (r.map Prod.fst).headI

section IntersectionLemmas

variable {V : Type}

/-! ### Facts about a single `step_iter_pair` -/

theorem step_cursor (m : Nat) (c : List (Nat × V)) :
    (step_iter_pair m c).2.2 = c.dropWhile (fun p => decide (p.1 < m)) := by
  rcases h : c.dropWhile (fun p => decide (p.1 < m)) with _ | ⟨q, rest⟩
  · simp [step_iter_pair, h]
  · simp only [step_iter_pair, h]
    by_cases hq : q.1 = m
    · rw [if_pos hq]
    · rw [if_neg hq]

theorem step_mono {m : Nat} {c : List (Nat × V)} {s : Status} {m' : Nat}
    {c' : List (Nat × V)} (h : step_iter_pair m c = (s, m', c')) : m ≤ m' := by
  rcases hd : c.dropWhile (fun p => decide (p.1 < m)) with _ | ⟨q, rest⟩
  · simp [step_iter_pair, hd] at h
    omega
  · simp only [step_iter_pair, hd] at h
    by_cases hq : q.1 = m
    · rw [if_pos hq] at h
      injection h with _ h2
      injection h2 with h2 _
      omega
    · rw [if_neg hq] at h
      injection h with _ h2
      injection h2 with h2 _
      have := dropWhile_head_ge hd
      omega

theorem step_mono_proj (m : Nat) (c : List (Nat × V)) :
    m ≤ (step_iter_pair m c).2.1 := by
  rcases hst : step_iter_pair m c with ⟨s, m1, c1⟩
  exact step_mono hst

theorem step_stop {m : Nat} {c : List (Nat × V)} {m' : Nat}
    {c' : List (Nat × V)} (h : step_iter_pair m c = (.STOP, m', c')) :
    c' = [] ∧ m' = m := by
  rcases hd : c.dropWhile (fun p => decide (p.1 < m)) with _ | ⟨q, rest⟩
  · simp [step_iter_pair, hd] at h
    exact ⟨h.2, h.1.symm⟩
  · simp only [step_iter_pair, hd] at h
    by_cases hq : q.1 = m
    · rw [if_pos hq] at h; exact absurd h (by simp)
    · rw [if_neg hq] at h; exact absurd h (by simp)

theorem step_call {m : Nat} {c : List (Nat × V)} {m' : Nat}
    {c' : List (Nat × V)} (h : step_iter_pair m c = (.CALL, m', c')) :
    m' = m ∧ ∃ v r, c' = (m, v) :: r := by
  rcases hd : c.dropWhile (fun p => decide (p.1 < m)) with _ | ⟨q, rest⟩
  · simp [step_iter_pair, hd] at h
  · simp only [step_iter_pair, hd] at h
    by_cases hq : q.1 = m
    · rw [if_pos hq] at h
      injection h with _ h2
      injection h2 with h2 h3
      refine ⟨h2.symm, q.2, rest, ?_⟩
      rw [← h3]
      have : q = (m, q.2) := by
        cases q; simp at hq ⊢; exact hq
      rw [← this]
    · rw [if_neg hq] at h; exact absurd h (by simp)

theorem step_new_max {m : Nat} {c : List (Nat × V)} {m' : Nat}
    {c' : List (Nat × V)} (h : step_iter_pair m c = (.NEW_MAX, m', c')) :
    m < m' ∧ ∃ v r, c' = (m', v) :: r := by
  rcases hd : c.dropWhile (fun p => decide (p.1 < m)) with _ | ⟨q, rest⟩
  · simp [step_iter_pair, hd] at h
  · simp only [step_iter_pair, hd] at h
    by_cases hq : q.1 = m
    · rw [if_pos hq] at h; exact absurd h (by simp)
    · rw [if_neg hq] at h
      injection h with _ h2
      injection h2 with h2 h3
      have hge := dropWhile_head_ge hd
      refine ⟨by omega, q.2, rest, ?_⟩
      rw [← h3, ← h2]

/-! ### `Status.min` case facts -/

theorem status_min_eq_stop {a b : Status} :
    a.min b = .STOP ↔ a = .STOP ∨ b = .STOP := by
  cases a <;> cases b <;> simp [Status.min]

theorem status_min_eq_call {a b : Status} :
    a.min b = .CALL ↔ a = .CALL ∧ b = .CALL := by
  cases a <;> cases b <;> simp [Status.min]

theorem status_min_eq_new_max {a b : Status} :
    a.min b = .NEW_MAX ↔
      (a ≠ .STOP ∧ b ≠ .STOP ∧ (a = .NEW_MAX ∨ b = .NEW_MAX)) := by
  cases a <;> cases b <;> simp [Status.min]

/-! ### Generic `Forall₂` helpers -/

theorem forall₂_mem_right {α β : Type} {R : α → β → Prop} :
    ∀ {l1 : List α} {l2 : List β}, List.Forall₂ R l1 l2 →
      ∀ {b : β}, b ∈ l2 → ∃ a ∈ l1, R a b := by
  intro l1 l2 h
  induction h with
  | nil => intro b hb; simp at hb
  | cons hr _ ih =>
      intro b hb
      rcases List.mem_cons.mp hb with rfl | hb'
      · exact ⟨_, by simp, hr⟩
      · rcases ih hb' with ⟨a, ha, hab⟩
        exact ⟨a, by simp [ha], hab⟩

theorem forall₂_mem_left {α β : Type} {R : α → β → Prop} :
    ∀ {l1 : List α} {l2 : List β}, List.Forall₂ R l1 l2 →
      ∀ {a : α}, a ∈ l1 → ∃ b ∈ l2, R a b := by
  intro l1 l2 h
  induction h with
  | nil => intro a ha; simp at ha
  | cons hr _ ih =>
      intro a ha
      rcases List.mem_cons.mp ha with rfl | ha'
      · exact ⟨_, by simp, hr⟩
      · rcases ih ha' with ⟨b, hb, hab⟩
        exact ⟨b, by simp [hb], hab⟩

theorem filterMap_congr_forall₂ {α β γ : Type} {f : α → Option γ}
    {g : β → Option γ} :
    ∀ {l1 : List α} {l2 : List β},
      List.Forall₂ (fun a b => f a = g b) l1 l2 →
      l1.filterMap f = l2.filterMap g := by
  intro l1 l2 h
  induction h with
  | nil => rfl
  | cons hr _ ih =>
      rw [List.filterMap_cons, List.filterMap_cons, hr, ih]

theorem sum_le_of_forall₂_sublist {V : Type} :
    ∀ {cs cs' : List (List (Nat × V))},
      List.Forall₂ (fun c c' => List.Sublist c' c) cs cs' →
      sumLens cs' ≤ sumLens cs := by
  intro cs cs' h
  induction h with
  | nil => simp
  | cons hr _ ih =>
      simp only [sumLens, List.map_cons, List.sum_cons] at *
      have := hr.length_le
      omega

/-! ### Per-step facts used by the pass lemmas -/

theorem step_sub (m : Nat) (c : List (Nat × V)) :
    List.Sublist (step_iter_pair m c).2.2 c := by
  rw [step_cursor]
  exact List.dropWhile_sublist _

theorem step_dropped {m : Nat} {c : List (Nat × V)} {x : Nat × V}
    (hx : x ∈ c) (hnx : x ∉ (step_iter_pair m c).2.2) : x.1 < m := by
  rw [step_cursor] at hnx
  have hsplit := List.takeWhile_append_dropWhile
    (p := fun p : Nat × V => decide (p.1 < m)) (l := c)
  rw [← hsplit] at hx
  rcases List.mem_append.mp hx with h | h
  · simpa using List.mem_takeWhile_imp h
  · exact absurd h hnx

theorem step_survive {m : Nat} {c : List (Nat × V)} {x : Nat × V}
    (hx : x ∈ c) (hge : m ≤ x.1) : x ∈ (step_iter_pair m c).2.2 := by
  rw [step_cursor]
  exact mem_dropWhile_of_not_pred hx (by simp; omega)

/-- In a sorted cursor the element with key `y ≥ m` survives the step, keeps
the step's candidate at or below `y`, and rules out `STOP`. -/
theorem step_preserve {m y : Nat} {c : List (Nat × V)}
    (hs : SortedKeys c) (hmy : m ≤ y) (hy : y ∈ keysOf c) :
    (step_iter_pair m c).2.1 ≤ y ∧ (step_iter_pair m c).1 ≠ .STOP
    ∧ y ∈ keysOf (step_iter_pair m c).2.2 := by
  rcases List.mem_map.mp hy with ⟨x, hxc, hxy⟩
  have hxs : x ∈ (step_iter_pair m c).2.2 := step_survive hxc (by omega)
  have hmem : y ∈ keysOf (step_iter_pair m c).2.2 :=
    List.mem_map.mpr ⟨x, hxs, hxy⟩
  refine ⟨?_, ?_, hmem⟩
  · rcases hst : step_iter_pair m c with ⟨s, m', c'⟩
    cases s with
    | STOP =>
        have := (step_stop hst).1
        rw [hst] at hxs
        simp [this] at hxs
    | CALL =>
        have := (step_call hst).1
        simp [this]
        omega
    | NEW_MAX =>
        rcases (step_new_max hst).2 with ⟨v, r, hc'⟩
        have hsc' : SortedKeys c' := hs.sublist (by
          have := step_sub m c
          rw [hst] at this
          exact this)
        rw [hst] at hxs
        simp only
        rw [hc'] at hxs hsc'
        rcases List.mem_cons.mp hxs with rfl | hxr
        · simp at hxy; omega
        · have : (m', v).1 < x.1 := List.rel_of_pairwise_cons hsc' hxr
          simp at this; omega
  · rcases hst : step_iter_pair m c with ⟨s, m', c'⟩
    intro hss
    simp only at hss
    subst hss
    have := (step_stop hst).1
    rw [hst] at hxs
    simp [this] at hxs

/-! ### `run_pass` facts -/

theorem run_pass_cons (m : Nat) (c : List (Nat × V))
    (cs : List (List (Nat × V))) :
    run_pass m (c :: cs) =
      ((step_iter_pair m c).1.min
         (run_pass (step_iter_pair m c).2.1 cs).1,
       (run_pass (step_iter_pair m c).2.1 cs).2.1,
       (step_iter_pair m c).2.2 ::
         (run_pass (step_iter_pair m c).2.1 cs).2.2) := by
  rcases hs : step_iter_pair m c with ⟨s, m1, c1⟩
  rcases hr : run_pass m1 cs with ⟨s2, m2, cs2⟩
  simp [run_pass, hs, hr]

theorem run_pass_mono : ∀ (m : Nat) (cs : List (List (Nat × V))),
    m ≤ (run_pass m cs).2.1 := by
  intro m cs
  induction cs generalizing m with
  | nil => simp [run_pass]
  | cons c cs ih =>
      rw [run_pass_cons]
      exact le_trans (step_mono_proj m c) (ih _)

theorem run_pass_len : ∀ (m : Nat) (cs : List (List (Nat × V))),
    (run_pass m cs).2.2.length = cs.length := by
  intro m cs
  induction cs generalizing m with
  | nil => simp [run_pass]
  | cons c cs ih =>
      rw [run_pass_cons]
      simp [ih]

/-- Pointwise relation between the cursors before and after a pass: each new
cursor is a sublist of the old one, elements dropped in the pass have keys
below the final candidate, and elements at or above the final candidate
survive. -/
theorem run_pass_forall₂ : ∀ (m : Nat) (cs : List (List (Nat × V))),
    List.Forall₂ (fun c c' => List.Sublist c' c
      ∧ (∀ x ∈ c, x ∉ c' → x.1 < (run_pass m cs).2.1)
      ∧ (∀ x ∈ c, (run_pass m cs).2.1 ≤ x.1 → x ∈ c'))
      cs (run_pass m cs).2.2 := by
  intro m cs
  induction cs generalizing m with
  | nil => simp [run_pass]
  | cons c cs ih =>
      have hM : (run_pass m (c :: cs)).2.1 =
          (run_pass (step_iter_pair m c).2.1 cs).2.1 := by
        rw [run_pass_cons]
      have hC : (run_pass m (c :: cs)).2.2 =
          (step_iter_pair m c).2.2 ::
            (run_pass (step_iter_pair m c).2.1 cs).2.2 := by
        rw [run_pass_cons]
      rw [hM, hC]
      refine List.Forall₂.cons ⟨step_sub m c, ?_, ?_⟩ (ih _)
      · intro x hx hnx
        have h1 := step_dropped hx hnx
        have h2 := step_mono_proj m c
        have h3 := run_pass_mono (step_iter_pair m c).2.1 cs
        omega
      · intro x hx hge
        have h2 := step_mono_proj m c
        have h3 := run_pass_mono (step_iter_pair m c).2.1 cs
        exact step_survive hx (by omega)

theorem run_pass_sum_le (m : Nat) (cs : List (List (Nat × V))) :
    sumLens (run_pass m cs).2.2 ≤ sumLens cs :=
  sum_le_of_forall₂_sublist
    (List.Forall₂.imp (fun _ _ h => h.1) (run_pass_forall₂ m cs))

theorem run_pass_stop : ∀ {m : Nat} {cs : List (List (Nat × V))},
    (run_pass m cs).1 = .STOP → ∃ c' ∈ (run_pass m cs).2.2, c' = [] := by
  intro m cs
  induction cs generalizing m with
  | nil => intro h; simp [run_pass] at h
  | cons c cs ih =>
      rw [run_pass_cons]
      intro h
      simp only at h
      rcases status_min_eq_stop.mp h with h1 | h2
      · refine ⟨(step_iter_pair m c).2.2, by simp, ?_⟩
        rcases hst : step_iter_pair m c with ⟨s, m1, c1⟩
        rw [hst] at h1
        simp only at h1
        subst h1
        simpa using (step_stop hst).1
      · rcases ih h2 with ⟨c', hc', he⟩
        exact ⟨c', by simp [hc'], he⟩

theorem run_pass_call : ∀ {m : Nat} {cs : List (List (Nat × V))},
    (run_pass m cs).1 = .CALL →
      (run_pass m cs).2.1 = m
      ∧ ∀ c' ∈ (run_pass m cs).2.2, ∃ v r, c' = (m, v) :: r := by
  intro m cs
  induction cs generalizing m with
  | nil => intro h; exact ⟨rfl, by simp [run_pass]⟩
  | cons c cs ih =>
      rw [run_pass_cons]
      intro h
      simp only at h
      rcases status_min_eq_call.mp h with ⟨h1, h2⟩
      rcases hst : step_iter_pair m c with ⟨s, m1, c1⟩
      rw [hst] at h1 h2
      dsimp only at h1 h2 ⊢
      subst h1
      obtain ⟨hm1, hhd⟩ := step_call hst
      subst hm1
      rcases ih h2 with ⟨hm, hall⟩
      refine ⟨hm, ?_⟩
      intro c' hc'
      rcases List.mem_cons.mp hc' with rfl | hc''
      · exact hhd
      · exact hall c' hc''

theorem run_pass_new_max_lt : ∀ {m : Nat} {cs : List (List (Nat × V))},
    (run_pass m cs).1 = .NEW_MAX → m < (run_pass m cs).2.1 := by
  intro m cs
  induction cs generalizing m with
  | nil => intro h; simp [run_pass] at h
  | cons c cs ih =>
      rw [run_pass_cons]
      intro h
      simp only at h
      rcases status_min_eq_new_max.mp h with ⟨h1, h2, h3⟩
      rcases hst : step_iter_pair m c with ⟨s, m1, c1⟩
      rw [hst] at h1 h2 h3
      dsimp only at h1 h2 h3 ⊢
      rcases h3 with rfl | hny
      · have := (step_new_max hst).1
        have := run_pass_mono m1 cs
        omega
      · have := step_mono hst
        have := ih hny
        omega

/-- If a key `y ≥ m` is present in every (sorted) cursor, the pass cannot
stop, its final candidate stays at or below `y`, and `y` is still present
in every advanced cursor. -/
theorem run_pass_preserve : ∀ {m y : Nat} {cs : List (List (Nat × V))},
    (∀ c ∈ cs, SortedKeys c) → m ≤ y → (∀ c ∈ cs, y ∈ keysOf c) →
      (run_pass m cs).2.1 ≤ y ∧ (run_pass m cs).1 ≠ .STOP
      ∧ ∀ c' ∈ (run_pass m cs).2.2, y ∈ keysOf c' := by
  intro m y cs
  induction cs generalizing m with
  | nil =>
      intro _ hmy _
      refine ⟨hmy, by simp [run_pass], by simp [run_pass]⟩
  | cons c cs ih =>
      intro hsort hmy hall
      have hstep := step_preserve (hsort c (by simp)) hmy (hall c (by simp))
      have ihr := ih (fun d hd => hsort d (by simp [hd])) hstep.1
        (fun d hd => hall d (by simp [hd]))
      rw [run_pass_cons]
      refine ⟨ihr.1, ?_, ?_⟩
      · simp only
        intro hmin
        rcases status_min_eq_stop.mp hmin with h1 | h2
        · exact hstep.2.1 h1
        · exact ihr.2.1 h2
      · intro c' hc'
        rcases List.mem_cons.mp hc' with rfl | hc''
        · exact hstep.2.2
        · exact ihr.2.2 c' hc''

/-- Aligned cursors (every head at the candidate) make the pass a pure
`CALL` that moves nothing. -/
theorem run_pass_aligned : ∀ {m : Nat} {cs : List (List (Nat × V))},
    (∀ c ∈ cs, ∃ v r, c = (m, v) :: r) → run_pass m cs = (.CALL, m, cs) := by
  intro m cs
  induction cs generalizing m with
  | nil => intro _; rfl
  | cons c cs ih =>
      intro hall
      rcases hall c (by simp) with ⟨v, r, rfl⟩
      have hstep : step_iter_pair m ((m, v) :: r) = (.CALL, m, (m, v) :: r) := by
        simp [step_iter_pair, List.dropWhile_cons]
      rw [run_pass_cons, hstep]
      simp only
      rw [ih (fun d hd => hall d (by simp [hd]))]
      rfl

/-- A cursor whose head key is below the candidate strictly shrinks during
the pass. -/
theorem run_pass_shrink : ∀ {m : Nat} {cs : List (List (Nat × V))}
    {q : Nat × V} {r : List (Nat × V)},
    (q :: r) ∈ cs → q.1 < m →
      sumLens (run_pass m cs).2.2 < sumLens cs := by
  intro m cs
  induction cs generalizing m with
  | nil => intro q r h _; simp at h
  | cons c cs ih =>
      intro q r hmem hlt
      rw [run_pass_cons]
      rcases List.mem_cons.mp hmem with rfl | hmem'
      · -- the head cursor shrinks; the tail does not grow
        have hlen : (step_iter_pair m (q :: r)).2.2.length < (q :: r).length := by
          rw [step_cursor, List.dropWhile_cons]
          rw [if_pos (by simp; omega)]
          have h4 := (List.dropWhile_sublist
            (fun p : Nat × V => decide (p.1 < m)) (l := r)).length_le
          simp only [List.length_cons]
          omega
        have htail := run_pass_sum_le (step_iter_pair m (q :: r)).2.1 cs
        dsimp only
        simp only [sumLens, List.map_cons, List.sum_cons] at *
        omega
      · have hm1 := step_mono_proj m c
        have := ih (m := (step_iter_pair m c).2.1) hmem' (by omega)
        have hhead := (step_sub m c).length_le
        dsimp only
        simp only [sumLens, List.map_cons, List.sum_cons] at *
        omega

theorem run_pass_sum_eq : ∀ {m : Nat} {cs : List (List (Nat × V))},
    sumLens (run_pass m cs).2.2 = sumLens cs → (run_pass m cs).2.2 = cs := by
  intro m cs
  induction cs generalizing m with
  | nil => intro _; simp [run_pass]
  | cons c cs ih =>
      rw [run_pass_cons]
      intro h
      simp only [sumLens, List.map_cons, List.sum_cons] at h
      have h1 := (step_sub m c).length_le
      have h2 := run_pass_sum_le (step_iter_pair m c).2.1 cs
      simp only [sumLens] at h2
      have hl : (step_iter_pair m c).2.2.length = c.length := by omega
      have hs : ((run_pass (step_iter_pair m c).2.1 cs).2.2.map
          List.length).sum = (cs.map List.length).sum := by omega
      have := (step_sub m c).eq_of_length hl
      rw [this]
      rw [ih (by simpa [sumLens] using hs)]

/-- Whenever a step does not report `STOP`, the advanced cursor's head sits
exactly at the step's resulting candidate. -/
theorem step_head_at_candidate {m : Nat} {c : List (Nat × V)}
    (h : (step_iter_pair m c).1 ≠ .STOP) :
    ∃ v r, (step_iter_pair m c).2.2 = ((step_iter_pair m c).2.1, v) :: r := by
  rcases hst : step_iter_pair m c with ⟨s, m1, c1⟩
  rw [hst] at h
  dsimp only at h ⊢
  cases s with
  | STOP => exact absurd rfl h
  | CALL =>
      rcases step_call hst with ⟨hm, v, r, hc⟩
      exact ⟨v, r, by rw [hc, hm]⟩
  | NEW_MAX =>
      rcases step_new_max hst with ⟨_, v, r, hc⟩
      exact ⟨v, r, hc⟩

/-- After a pass that reports `NEW_MAX` without moving any cursor, either
some cursor head sits strictly below the new candidate, or every cursor
head sits exactly at it. -/
theorem run_pass_stagnant : ∀ {m : Nat} {cs : List (List (Nat × V))},
    (run_pass m cs).1 = .NEW_MAX → (run_pass m cs).2.2 = cs →
      (∃ q : Nat × V, ∃ r, (q :: r) ∈ cs ∧ q.1 < (run_pass m cs).2.1)
      ∨ (∀ c ∈ cs, ∃ v r, c = ((run_pass m cs).2.1, v) :: r) := by
  intro m cs
  induction cs generalizing m with
  | nil => intro h _; simp [run_pass] at h
  | cons c cs ih =>
      intro hnm hstag
      have hMdef : (run_pass m (c :: cs)).2.1 =
          (run_pass (step_iter_pair m c).2.1 cs).2.1 := by
        rw [run_pass_cons]
      rw [run_pass_cons] at hnm hstag
      dsimp only at hnm hstag
      rw [hMdef]
      have hc1 : (step_iter_pair m c).2.2 = c := (List.cons.inj hstag).1
      have hcs2 : (run_pass (step_iter_pair m c).2.1 cs).2.2 = cs :=
        (List.cons.inj hstag).2
      rcases status_min_eq_new_max.mp hnm with ⟨h1, h2, h3⟩
      rcases step_head_at_candidate h1 with ⟨v, r, hhead⟩
      rw [hc1] at hhead
      rcases hs2 : (run_pass (step_iter_pair m c).2.1 cs).1 with _ | _ | _
      · exact absurd hs2 h2
      · -- the tail raised the candidate beyond the head cursor's key
        have hlt := run_pass_new_max_lt hs2
        exact Or.inl ⟨((step_iter_pair m c).2.1, v), r,
          by rw [← hhead]; exact List.mem_cons_self _ _, by simpa using hlt⟩
      · -- the tail is all CALL at the head step's candidate
        have hcall := run_pass_call hs2
        refine Or.inr ?_
        intro d hd
        rcases List.mem_cons.mp hd with rfl | hd'
        · exact ⟨v, r, by rw [hcall.1]; exact hhead⟩
        · have hmem := hcall.2 d (by rw [hcs2]; exact hd')
          rw [hcall.1]
          exact hmem

/-! ### Helpers on sorted key lists, `find?`, `rowFor` and `interKeys` -/

/-- Two strictly increasing lists with the same members are equal. -/
theorem sorted_lt_ext : ∀ {l1 l2 : List Nat},
    List.Pairwise (· < ·) l1 → List.Pairwise (· < ·) l2 →
    (∀ a, a ∈ l1 ↔ a ∈ l2) → l1 = l2 := by
  intro l1
  induction l1 with
  | nil =>
      intro l2 _ _ hm
      cases l2 with
      | nil => rfl
      | cons b t => exact absurd ((hm b).mpr (by simp)) (by simp)
  | cons a t1 ih =>
      intro l2 h1 h2 hm
      cases l2 with
      | nil => exact absurd ((hm a).mp (by simp)) (by simp)
      | cons b t2 =>
          have hab : a = b := by
            have ha2 : a ∈ b :: t2 := (hm a).mp (by simp)
            have hb1 : b ∈ a :: t1 := (hm b).mpr (by simp)
            rcases List.mem_cons.mp ha2 with h | h
            · exact h
            · rcases List.mem_cons.mp hb1 with h' | h'
              · exact h'.symm
              · have := List.rel_of_pairwise_cons h2 h
                have := List.rel_of_pairwise_cons h1 h'
                omega
          subst hab
          have ht : t1 = t2 := by
            refine ih (List.pairwise_cons.mp h1).2
              (List.pairwise_cons.mp h2).2 ?_
            intro x
            constructor
            · intro hx
              have hax := List.rel_of_pairwise_cons h1 hx
              rcases List.mem_cons.mp ((hm x).mp (by simp [hx])) with rfl | h
              · omega
              · exact h
            · intro hx
              have hax := List.rel_of_pairwise_cons h2 hx
              rcases List.mem_cons.mp ((hm x).mpr (by simp [hx])) with rfl | h
              · omega
              · exact h
          rw [ht]

/-- In a sorted table, `find?` by key locates exactly the stored pair. -/
theorem find?_at_key : ∀ {c : List (Nat × V)} {y : Nat} {v : V},
    SortedKeys c → (y, v) ∈ c →
    c.find? (fun p => decide (p.1 = y)) = some (y, v) := by
  intro c
  induction c with
  | nil => intro y v _ h; simp at h
  | cons q r ih =>
      intro y v hs hm
      by_cases hq : q.1 = y
      · have : q = (y, v) := by
          rcases List.mem_cons.mp hm with rfl | hmr
          · rfl
          · have := List.rel_of_pairwise_cons hs hmr
            simp [hq] at this
        rw [List.find?_cons_of_pos _ (by simp [hq])]
        rw [this]
      · rw [List.find?_cons_of_neg _ (by simp [hq])]
        rcases List.mem_cons.mp hm with rfl | hmr
        · simp at hq
        · exact ih (List.pairwise_cons.mp hs).2 hmr

theorem rowFor_cons_eq {c : List (Nat × V)} {cs : List (List (Nat × V))}
    {y : Nat} {v : V} (hs : SortedKeys c) (hv : (y, v) ∈ c) :
    rowFor (c :: cs) y = (y, v) :: rowFor cs y := by
  rw [rowFor, List.filterMap_cons, find?_at_key hs hv]
  rfl

/-- A strengthened `Forall₂` from pointwise facts plus per-side membership
facts. -/
theorem forall₂_strengthen {α β : Type} {R S : α → β → Prop}
    {P : α → Prop} {Q : β → Prop} :
    ∀ {l1 : List α} {l2 : List β}, List.Forall₂ R l1 l2 →
      (∀ a ∈ l1, P a) → (∀ b ∈ l2, Q b) →
      (∀ a b, R a b → P a → Q b → S a b) → List.Forall₂ S l1 l2 := by
  intro l1 l2 h
  induction h with
  | nil => intro _ _ _; exact List.Forall₂.nil
  | cons hr _ ih =>
      intro hP hQ himp
      exact List.Forall₂.cons
        (himp _ _ hr (hP _ (by simp)) (hQ _ (by simp)))
        (ih (fun a ha => hP a (by simp [ha]))
          (fun b hb => hQ b (by simp [hb])) himp)

theorem forall₂_map_right {α β γ : Type} {R : α → β → Prop}
    {S : α → γ → Prop} {g : β → γ} :
    ∀ {l1 : List α} {l2 : List β}, List.Forall₂ R l1 l2 →
      (∀ a b, R a b → S a (g b)) → List.Forall₂ S l1 (l2.map g) := by
  intro l1 l2 h
  induction h with
  | nil => intro _; exact List.Forall₂.nil
  | cons hr _ ih =>
      intro himp
      exact List.Forall₂.cons (himp _ _ hr) (ih himp)

/-- The `rowFor` only depends on the part of the cursors at or after the key it
selects: advancing cursors (to sublists still containing the key) does not
change the row. -/
theorem rowFor_stable : ∀ {cs cs' : List (List (Nat × V))},
    List.Forall₂ (fun c c' => List.Sublist c' c) cs cs' →
    (∀ c ∈ cs, SortedKeys c) → ∀ {y : Nat},
    (∀ c' ∈ cs', y ∈ keysOf c') → rowFor cs' y = rowFor cs y := by
  intro cs cs' h
  induction h with
  | nil => intro _ y _; rfl
  | @cons c c' cst cst' hr hrest ih =>
      intro hsort y hy
      have hsc : SortedKeys c := hsort c (by simp)
      have hsc' : SortedKeys c' := hsc.sublist hr
      rcases List.mem_map.mp (hy c' (by simp)) with ⟨x, hxc', hxy⟩
      have hxpair : x = (y, x.2) := by
        cases x; simp at hxy; simp [hxy]
      rw [hxpair] at hxc'
      have hxc : (y, x.2) ∈ c := hr.mem hxc'
      rw [rowFor_cons_eq hsc' hxc', rowFor_cons_eq hsc hxc]
      rw [ih (fun d hd => hsort d (by simp [hd])) (fun d hd => hy d (by simp [hd]))]

/-- Membership in `interKeys`. -/
theorem interKeys_mem {b : Nat} {cs : List (List (Nat × V))}
    (h : cs ≠ []) {y : Nat} :
    y ∈ interKeys b cs ↔ (b ≤ y ∧ ∀ c ∈ cs, y ∈ keysOf c) := by
  rcases cs with _ | ⟨c, cst⟩
  · exact absurd rfl h
  · rw [interKeys]
    rw [List.mem_filter]
    constructor
    · rintro ⟨_, hp⟩
      simpa using hp
    · rintro ⟨hby, hall⟩
      refine ⟨hall c (by simp), ?_⟩
      simp only [decide_eq_true_eq]
      exact ⟨hby, hall⟩

theorem interKeys_pairwise {b : Nat} {cs : List (List (Nat × V))}
    (hs : ∀ c ∈ cs, SortedKeys c) :
    List.Pairwise (· < ·) (interKeys b cs) := by
  rcases cs with _ | ⟨c, cst⟩
  · exact List.Pairwise.nil
  · rw [interKeys]
    have : List.Pairwise (· < ·) (keysOf c) := by
      rw [keysOf, List.pairwise_map]
      exact hs c (by simp)
    exact this.sublist (List.filter_sublist _)

/-- Per-cursor count of elements consumed by the post-`CALL` advance. -/
theorem sumLens_drop_heads : ∀ {cs : List (List (Nat × V))},
    (∀ c ∈ cs, c ≠ []) →
    sumLens (cs.map (fun c => c.drop 1)) + cs.length = sumLens cs := by
  intro cs
  induction cs with
  | nil => intro _; rfl
  | cons c cst ih =>
      intro h
      have hc : c ≠ [] := h c (by simp)
      have := ih (fun d hd => h d (by simp [hd]))
      simp only [sumLens, List.map_cons, List.sum_cons, List.length_cons] at *
      have : (c.drop 1).length = c.length - 1 := by simp
      rcases c with _ | ⟨x, r⟩
      · exact absurd rfl hc
      · simp only [List.length_cons] at *
        omega

theorem interKeys_eq_nil {b : Nat} {cs : List (List (Nat × V))}
    (h : ∀ y, b ≤ y → (∀ c ∈ cs, y ∈ keysOf c) → False) :
    interKeys b cs = [] := by
  rcases cs with _ | ⟨c, cst⟩
  · rfl
  · rw [interKeys, List.filter_eq_nil_iff]
    intro y _
    simp only [decide_eq_true_eq]
    intro hcon
    exact h y hcon.1 hcon.2

end IntersectionLemmas

/-- The state of the cursors right after a stagnating `NEW_MAX` pass: some
cursor head is still strictly below the candidate, or every cursor head is
exactly at it.  Such a state never stagnates again, which is what makes the
fuel bound `2 * sumLens + 2` sufficient. -/
def PostStag {V : Type} (m : Nat) (cs : List (List (Nat × V))) : Prop :=
  (∃ q : Nat × V, ∃ r, (q :: r) ∈ cs ∧ q.1 < m)
  ∨ (∀ c ∈ cs, ∃ v r, c = (m, v) :: r)

section MainIntersection

variable {V : Type}

/-- Total correctness of the merge-join loop: started on sorted cursors with
candidate `m`, pending bound `b` (`m`, or `m + 1` just after a callback),
and enough fuel, the loop emits exactly the rows of the keys `≥ b` common
to all cursors, in increasing key order. -/
theorem vsi_go_spec : ∀ (f : Nat) (b m : Nat)
    (cs out : List (List (Nat × V))),
    cs ≠ [] →
    (∀ c ∈ cs, SortedKeys c) →
    (b = m ∨ (b = m + 1 ∧ ∀ c ∈ cs, ∀ x ∈ c, b ≤ x.1)) →
    (2 * sumLens cs + 2 ≤ f ∨
      (2 * sumLens cs + 1 ≤ f ∧ b = m ∧ PostStag m cs)) →
    vsi_go f m cs out = out ++ (interKeys b cs).map (rowFor cs) := by
  intro f
  induction f using Nat.strong_induction_on with
  | _ f ih =>
  intro b m cs out hne hsort hinv hfuel
  rcases f with _ | f'
  · exfalso; rcases hfuel with h | ⟨h, _⟩ <;> omega
  have hmb : m ≤ b ∧ b ≤ m + 1 := by rcases hinv with rfl | ⟨rfl, _⟩ <;> omega
  rcases hrp : run_pass m cs with ⟨S, M, cs'⟩
  have hS : (run_pass m cs).1 = S := by rw [hrp]
  have hM : (run_pass m cs).2.1 = M := by rw [hrp]
  have hC : (run_pass m cs).2.2 = cs' := by rw [hrp]
  cases S with
  | STOP =>
      simp only [vsi_go, hrp]
      have hempty : interKeys b cs = [] := by
        refine interKeys_eq_nil ?_
        intro y hby hall
        exact (run_pass_preserve hsort (by omega) hall).2.1 hS
      rw [hempty]
      simp
  | CALL =>
      have hcall := run_pass_call hS
      rw [hM, hC] at hcall
      obtain ⟨hMm, hheads⟩ := hcall
      rw [hMm] at hrp hM
      have hF := run_pass_forall₂ m cs
      rw [hM, hC] at hF
      have hne' : cs' ≠ [] := by
        intro hnil
        apply hne
        have := hF.length_eq
        rw [hnil] at this
        simp at this
        exact this
      rcases hinv with heq | ⟨heq, hbig⟩
      · -- main case: b = m
        subst b
        simp only [vsi_go, hrp]
        have hsort' : ∀ c' ∈ cs', SortedKeys c' := by
          intro c' hc'
          obtain ⟨c, hc, hrel⟩ := forall₂_mem_right hF hc'
          exact (hsort c hc).sublist hrel.1
        have hsort2 : ∀ c2 ∈ cs'.map (fun c => c.drop 1), SortedKeys c2 := by
          intro c2 hc2
          rcases List.mem_map.mp hc2 with ⟨c', hc', rfl⟩
          exact (hsort' c' hc').sublist (List.drop_sublist 1 c')
        have hne2 : cs'.map (fun c => c.drop 1) ≠ [] := by
          intro h
          exact hne' (by simpa using h)
        have hforall_ne : ∀ c' ∈ cs', c' ≠ [] := by
          intro c' hc'
          obtain ⟨v, r, rfl⟩ := hheads c' hc'
          simp
        have hbound2 : ∀ c2 ∈ cs'.map (fun c => c.drop 1),
            ∀ x ∈ c2, m + 1 ≤ x.1 := by
          intro c2 hc2 x hx
          rcases List.mem_map.mp hc2 with ⟨c', hc', rfl⟩
          obtain ⟨v, r, rfl⟩ := hheads c' hc'
          simp only [List.drop_succ_cons, List.drop_zero] at hx
          have := List.rel_of_pairwise_cons (hsort' _ hc') hx
          simp at this
          omega
        have hsum2 := sumLens_drop_heads hforall_ne
        have hlen' : cs'.length = cs.length := by
          rw [← hC]; exact run_pass_len m cs
        have hsum' : sumLens cs' ≤ sumLens cs := by
          rw [← hC]; exact run_pass_sum_le m cs
        have hcslen : 0 < cs.length := List.length_pos.mpr hne
        have hfuel1 : 2 * sumLens cs + 1 ≤ Nat.succ f' := by
          rcases hfuel with h | ⟨h, _⟩ <;> omega
        have hfuel2 : 2 * sumLens (cs'.map (fun c => c.drop 1)) + 2 ≤ f' := by
          omega
        have hIH := ih f' (by omega) (m + 1) m (cs'.map (fun c => c.drop 1))
          (out ++ [cs'.filterMap List.head?]) hne2 hsort2
          (Or.inr ⟨rfl, hbound2⟩) (Or.inl hfuel2)
        rw [hIH]
        -- the row fired by this pass is exactly `rowFor cs m`
        have hrowhead : rowFor cs m = cs'.filterMap List.head? := by
          rw [rowFor]
          apply filterMap_congr_forall₂
          refine forall₂_strengthen hF hsort (fun c' hc' => hheads c' hc') ?_
          intro c c' hrel hsc hh
          obtain ⟨v, r, rfl⟩ := hh
          have hmem : (m, v) ∈ c := hrel.1.mem (by simp)
          rw [find?_at_key hsc hmem]
          rfl
        have hsub2 : List.Forall₂ (fun c c2 => List.Sublist c2 c) cs
            (cs'.map (fun c => c.drop 1)) := by
          refine forall₂_map_right hF ?_
          intro a c' hrel
          exact (List.drop_sublist 1 c').trans hrel.1
        have hF' : List.Forall₂ (fun c c' =>
            (∀ x ∈ c, m ≤ x.1 → x ∈ c') ∧ ∃ v r, c' = (m, v) :: r) cs cs' :=
          forall₂_strengthen hF (fun _ _ => trivial)
            (fun c' hc' => hheads c' hc')
            (fun a c' hrel _ hq => ⟨hrel.2.2, hq⟩)
        have hsurv2 : List.Forall₂ (fun c c2 => ∀ x ∈ c, m + 1 ≤ x.1 → x ∈ c2)
            cs (cs'.map (fun c => c.drop 1)) := by
          refine forall₂_map_right hF' ?_
          intro a c' h x hx hx1
          obtain ⟨hsv, v, r, rfl⟩ := h
          have hxc' := hsv x hx (by omega)
          simp only [List.drop_succ_cons, List.drop_zero]
          rcases List.mem_cons.mp hxc' with rfl | hxr
          · simp at hx1
          · exact hxr
        have hE1 : interKeys m cs =
            m :: interKeys (m + 1) (cs'.map (fun c => c.drop 1)) := by
          refine sorted_lt_ext (interKeys_pairwise hsort) ?_ ?_
          · refine List.pairwise_cons.mpr ⟨?_, interKeys_pairwise hsort2⟩
            intro y hy
            have := (interKeys_mem hne2).mp hy
            omega
          · intro y
            rw [interKeys_mem hne, List.mem_cons, interKeys_mem hne2]
            constructor
            · rintro ⟨hmy, hall⟩
              by_cases hym : y = m
              · exact Or.inl hym
              · refine Or.inr ⟨by omega, ?_⟩
                intro c2 hc2
                obtain ⟨c, hc, hsv⟩ := forall₂_mem_right hsurv2 hc2
                rcases List.mem_map.mp (hall c hc) with ⟨x, hxc, hxy⟩
                exact List.mem_map.mpr ⟨x, hsv x hxc (by omega), hxy⟩
            · rintro (heq2 | ⟨hy1, hall2⟩)
              · refine ⟨by omega, ?_⟩
                intro c hc
                obtain ⟨c', hc', hrel⟩ := forall₂_mem_left hF hc
                obtain ⟨v, r, rfl⟩ := hheads c' hc'
                have : (m, v) ∈ c := hrel.1.mem (by simp)
                exact List.mem_map.mpr ⟨(m, v), this, by simp [heq2]⟩
              · refine ⟨by omega, ?_⟩
                intro c hc
                obtain ⟨c2, hc2, hsub⟩ := forall₂_mem_left hsub2 hc
                rcases List.mem_map.mp (hall2 c2 hc2) with ⟨x, hx, hxy⟩
                exact List.mem_map.mpr ⟨x, hsub.mem hx, hxy⟩
        have hE3 : (interKeys (m + 1) (cs'.map (fun c => c.drop 1))).map
              (rowFor (cs'.map (fun c => c.drop 1)))
            = (interKeys (m + 1) (cs'.map (fun c => c.drop 1))).map
              (rowFor cs) := by
          apply List.map_congr_left
          intro y hy
          exact rowFor_stable hsub2 hsort ((interKeys_mem hne2).mp hy).2
        rw [hE3, hE1, ← hrowhead]
        simp [List.map_cons]
      · -- impossible: right after a callback every cursor key is ≥ m + 1,
        -- but a CALL pass needs every cursor head at m
        subst b
        exfalso
        obtain ⟨c0', hc0'⟩ := List.exists_mem_of_ne_nil cs' hne'
        obtain ⟨v, r, hc0eq⟩ := hheads c0' hc0'
        obtain ⟨c0, hc0, hrel⟩ := forall₂_mem_right hF hc0'
        have hmm : (m, v) ∈ c0 := hrel.1.mem (by rw [hc0eq]; simp)
        have := hbig c0 hc0 (m, v) hmm
        simp at this
  | NEW_MAX =>
      have hMlt : m < M := by
        have := run_pass_new_max_lt hS
        rwa [hM] at this
      have hF := run_pass_forall₂ m cs
      rw [hM, hC] at hF
      have hsub' : List.Forall₂ (fun c c' => List.Sublist c' c) cs cs' :=
        List.Forall₂.imp (fun _ _ h => h.1) hF
      have hsort' : ∀ c' ∈ cs', SortedKeys c' := by
        intro c' hc'
        obtain ⟨c, hc, hrel⟩ := forall₂_mem_right hsub' hc'
        exact (hsort c hc).sublist hrel
      have hne' : cs' ≠ [] := by
        intro hnil
        apply hne
        have := hF.length_eq
        rw [hnil] at this
        simp at this
        exact this
      have hE4 : interKeys b cs = interKeys M cs' := by
        refine sorted_lt_ext (interKeys_pairwise hsort)
          (interKeys_pairwise hsort') ?_
        intro y
        rw [interKeys_mem hne, interKeys_mem hne']
        constructor
        · rintro ⟨hby, hall⟩
          have hpres := run_pass_preserve (m := m) (y := y) hsort (by omega) hall
          rw [hM, hC] at hpres
          exact ⟨hpres.1, hpres.2.2⟩
        · rintro ⟨hMy, hall'⟩
          refine ⟨by omega, ?_⟩
          intro c hc
          obtain ⟨c', hc', hsub⟩ := forall₂_mem_left hsub' hc
          rcases List.mem_map.mp (hall' c' hc') with ⟨x, hx, hxy⟩
          exact List.mem_map.mpr ⟨x, hsub.mem hx, hxy⟩
      have hE5 : (interKeys M cs').map (rowFor cs')
          = (interKeys M cs').map (rowFor cs) := by
        apply List.map_congr_left
        intro y hy
        exact rowFor_stable hsub' hsort ((interKeys_mem hne').mp hy).2
      simp only [vsi_go, hrp]
      rw [hE4, ← hE5]
      have hsum' : sumLens cs' ≤ sumLens cs := by
        rw [← hC]; exact run_pass_sum_le m cs
      by_cases hdec : sumLens cs' < sumLens cs
      · have hfuel1 : 2 * sumLens cs + 1 ≤ Nat.succ f' := by
          rcases hfuel with h | ⟨h, _⟩ <;> omega
        exact ih f' (by omega) M M cs' out hne' hsort' (Or.inl rfl)
          (Or.inl (by omega))
      · have hseq : sumLens cs' = sumLens cs := by omega
        have hstag : cs' = cs := by
          have := @run_pass_sum_eq _ m cs (by rw [hC]; exact hseq)
          rwa [hC] at this
        have hfuel_first : 2 * sumLens cs + 2 ≤ Nat.succ f' := by
          rcases hfuel with h | ⟨h, hbm, hps⟩
          · exact h
          · exfalso
            rcases hps with ⟨q, r, hqr, hqlt⟩ | hall
            · have := run_pass_shrink hqr hqlt
              rw [hC] at this
              omega
            · have := run_pass_aligned hall
              rw [hrp] at this
              simp at this
        have hps' : PostStag M cs' := by
          have := run_pass_stagnant hS (by rw [hC]; exact hstag)
          rw [hM] at this
          rw [hstag]
          exact this
        exact ih f' (by omega) M M cs' out hne' hsort' (Or.inl rfl)
          (Or.inr ⟨by omega, rfl, hps'⟩)

/-- When the first table is empty, the loop's first pass already reports
`STOP` (the first cursor is exhausted), so the output is `out` whatever the
initial candidate is.  This shows the result does not depend on the value
`get_first_key` models for the C++ end-iterator dereference. -/
theorem vsi_go_first_table_empty (f m : Nat)
    (rest out : List (List (Nat × V))) :
    vsi_go (f + 1) m ([] :: rest) out = out := by
  have hstep : step_iter_pair m ([] : List (Nat × V)) = (.STOP, m, []) := by
    simp [step_iter_pair, List.dropWhile]
  have hpass : (run_pass m (([] : List (Nat × V)) :: rest)).1 = .STOP := by
    rw [run_pass_cons, hstep]
    dsimp only
    rw [status_min_eq_stop]
    exact Or.inl rfl
  rcases hrp : run_pass m (([] : List (Nat × V)) :: rest) with ⟨S, M, cs'⟩
  rw [hrp] at hpass
  dsimp only at hpass
  subst hpass
  simp only [vsi_go, hrp]

theorem rowFor_props : ∀ {cs : List (List (Nat × V))} {y : Nat},
    (∀ c ∈ cs, SortedKeys c) → (∀ c ∈ cs, y ∈ keysOf c) →
    (rowFor cs y).length = cs.length ∧ ∀ x ∈ rowFor cs y, x.1 = y := by
  intro cs
  induction cs with
  | nil => intro y _ _; exact ⟨rfl, by intro x hx; simp [rowFor] at hx⟩
  | cons c cst ih =>
      intro y hsort hall
      rcases List.mem_map.mp (hall c (by simp)) with ⟨x, hx, hxy⟩
      have hxp : x = (y, x.2) := by cases x; simp at hxy; simp [hxy]
      rw [hxp] at hx
      rw [rowFor_cons_eq (hsort c (by simp)) hx]
      have := ih (fun d hd => hsort d (by simp [hd]))
        (fun d hd => hall d (by simp [hd]))
      refine ⟨by simp [this.1], ?_⟩
      intro z hz
      rcases List.mem_cons.mp hz with rfl | hz'
      · rfl
      · exact this.2 z hz'

/-- Claim C1.  For every `k ≥ 1` sorted tables (empty tables allowed),
`variadic_set_intersection` fires its callback exactly for the keys present
in every table's key set, each exactly once, in strictly increasing key
order; each callback receives one pair per table, all carrying that key. -/
theorem variadic_set_intersection_correct
    (cs : List (List (Nat × V))) (hne : cs ≠ [])
    (hsort : ∀ c ∈ cs, SortedKeys c) :
    (∀ y, y ∈ (variadic_set_intersection cs).map keyOfRow ↔
      ∀ c ∈ cs, y ∈ keysOf c)
    ∧ List.Pairwise (· < ·) ((variadic_set_intersection cs).map keyOfRow)
    ∧ ∀ r ∈ variadic_set_intersection cs,
        r.length = cs.length ∧ ∀ x ∈ r, x.1 = keyOfRow r := by
  have hres : variadic_set_intersection cs =
      (interKeys (get_first_key cs) cs).map (rowFor cs) := by
    rw [variadic_set_intersection]
    have := vsi_go_spec (2 * sumLens cs + 2) (get_first_key cs)
      (get_first_key cs) cs [] hne hsort (Or.inl rfl) (Or.inl (le_refl _))
    rw [this]
    simp
  -- every key of the first table is at least the initial candidate
  have hgfk : ∀ y, (∀ c ∈ cs, y ∈ keysOf c) → get_first_key cs ≤ y := by
    intro y hall
    rcases cs with _ | ⟨c0, rest⟩
    · exact absurd rfl hne
    · have hy0 := hall c0 (by simp)
      rcases c0 with _ | ⟨q, r⟩
      · simp [keysOf] at hy0
      · rcases List.mem_map.mp hy0 with ⟨x, hx, hxy⟩
        rcases List.mem_cons.mp hx with rfl | hxr
        · rcases x with ⟨a, b⟩
          simp [get_first_key]
          simp at hxy
          omega
        · have := List.rel_of_pairwise_cons (hsort (q :: r) (by simp)) hxr
          rcases q with ⟨a, b⟩
          simp at hxy this
          show a ≤ y
          omega
  have hkeymem : ∀ y, y ∈ interKeys (get_first_key cs) cs ↔
      ∀ c ∈ cs, y ∈ keysOf c := by
    intro y
    rw [interKeys_mem hne]
    exact ⟨fun h => h.2, fun h => ⟨hgfk y h, h⟩⟩
  have hkeyrow : ∀ y ∈ interKeys (get_first_key cs) cs,
      keyOfRow (rowFor cs y) = y := by
    intro y hy
    have hall := (hkeymem y).mp hy
    rcases cs with _ | ⟨c0, rest⟩
    · exact absurd rfl hne
    · rcases List.mem_map.mp (hall c0 (by simp)) with ⟨x, hx, hxy⟩
      have hxp : x = (y, x.2) := by cases x; simp at hxy; simp [hxy]
      rw [hxp] at hx
      rw [rowFor_cons_eq (hsort c0 (by simp)) hx]
      simp [keyOfRow]
  have hmapkeys : (variadic_set_intersection cs).map keyOfRow =
      interKeys (get_first_key cs) cs := by
    rw [hres, List.map_map]
    have : ∀ y ∈ interKeys (get_first_key cs) cs,
        (keyOfRow ∘ rowFor cs) y = id y := by
      intro y hy
      simp only [Function.comp_apply, id_eq]
      exact hkeyrow y hy
    rw [List.map_congr_left this, List.map_id]
  refine ⟨?_, ?_, ?_⟩
  · intro y
    rw [hmapkeys]
    exact hkeymem y
  · rw [hmapkeys]
    exact interKeys_pairwise hsort
  · intro r hr
    rw [hres] at hr
    rcases List.mem_map.mp hr with ⟨y, hy, rfl⟩
    have hall := (hkeymem y).mp hy
    have hprops := rowFor_props hsort hall
    rw [hkeyrow y hy]
    exact hprops

end MainIntersection

/-! ## Handle generators (src/oki/util/oki_handle_gen.h)

The generators' own header is in the snapshot; the primitives they use come
from `oki/oki_handle.h`, which is not. -/

/-- Modelled from the spec: the handle-domain primitives of `oki/oki_handle.h`
(the header is absent from this snapshot; only its users and its tests are
present).  Spec §3: a Handle is "an allocator-issued integer identifier with
a reserved invalid sentinel value" over a "fixed-width unsigned integer
domain".  The tests (oki_test_handle.cpp) pin down that a fresh generator's
first `create_handle()` equals `get_first_valid_handle()`, that issued
handles are never `is_bad_handle`, and that consecutively issued handles are
consecutive integers.  We model the domain as `Nat` reduced modulo `2^64`
(the default `oki::Handle` is 64-bit), the sentinel as `0`, the first valid
handle as `1`, and `advance` as post-increment modulo `2^64`. -/
def handleModulus : Nat := 2 ^ 64

/-- Modelled from the spec: the reserved invalid sentinel value. -/
def get_invalid_handle_constant : Nat := 0

/-- Modelled from the spec: the first handle a fresh generator issues. -/
def get_first_valid_handle : Nat := 1

/-- Modelled from the spec: the sentinel test. -/
def is_bad_handle (h : Nat) : Bool := h == get_invalid_handle_constant

/-- Modelled from the spec: `advance(counter_)` consumes the next handle
value — returns the current counter and post-increments it (fixed-width
unsigned arithmetic). -/
def advance (c : Nat) : Nat × Nat := (c, (c + 1) % handleModulus)

/-- Model of `LinearHandleGenerator`: a monotonic counter only. -/
structure LinearHandleGenerator where
  counter : Nat := get_first_valid_handle
deriving DecidableEq, Repr

/-- The `create_handle()`: `return oki::intl_::advance(counter_);`. -/
def LinearHandleGenerator.create_handle (g : LinearHandleGenerator) :
    Nat × LinearHandleGenerator :=
  ((advance g.counter).1, ⟨(advance g.counter).2⟩)

/-- The `destroy_handle(handle)`: `return true;` — always succeeds trivially. -/
def LinearHandleGenerator.destroy_handle (g : LinearHandleGenerator)
    (h : Nat) : Bool × LinearHandleGenerator :=
  (true, g)

/-- The `reset()`: `counter_ = get_first_valid_handle();`. -/
def LinearHandleGenerator.reset (g : LinearHandleGenerator) :
    LinearHandleGenerator :=
  ⟨get_first_valid_handle⟩

/-- The `verify_handle(handle)`: not the bad handle, and below the counter. -/
def LinearHandleGenerator.verify_handle (g : LinearHandleGenerator)
    (h : Nat) : Bool :=
  !is_bad_handle h && decide (h < g.counter)

/-- Model of `DebugHandleGenerator`: a linear generator plus the
`unordered_set` of destroyed handles (modelled as a duplicate-free list). -/
structure DebugHandleGenerator where
  invalidHandles : List Nat := []
  handleGen : LinearHandleGenerator := {}
deriving DecidableEq, Repr

def DebugHandleGenerator.create_handle (g : DebugHandleGenerator) :
    Nat × DebugHandleGenerator :=
  ((g.handleGen.create_handle).1, { g with handleGen := (g.handleGen.create_handle).2 })

/-- The `destroy_handle`: `verify_handle(handle) && invalidHandles_.insert(handle).second`
(short-circuit: no insertion when verification fails; inserting an already
present handle reports `false`). -/
def DebugHandleGenerator.destroy_handle (g : DebugHandleGenerator)
    (h : Nat) : Bool × DebugHandleGenerator :=
  if g.handleGen.verify_handle h then
    if g.invalidHandles.contains h then (false, g)
    else (true, { g with invalidHandles := h :: g.invalidHandles })
  else (false, g)

def DebugHandleGenerator.reset (g : DebugHandleGenerator) :
    DebugHandleGenerator :=
  { invalidHandles := [], handleGen := g.handleGen.reset }

/-- The `verify_handle`: could have been given, and was not deleted. -/
def DebugHandleGenerator.verify_handle (g : DebugHandleGenerator)
    (h : Nat) : Bool :=
  g.handleGen.verify_handle h && !g.invalidHandles.contains h

/-- Model of `ReuseHandleGenerator`: a linear generator plus the
`std::forward_list` pool of deleted handles.  `push_front`/`pop_front` make
the pool a stack (last-in, first-out). -/
structure ReuseHandleGenerator where
  deletedHandles : List Nat := []
  handleGen : LinearHandleGenerator := {}
deriving DecidableEq, Repr

/-- The `create_handle()`: serve `deletedHandles_.front()` (then `pop_front`)
when the pool is non-empty, else mint from the counter. -/
def ReuseHandleGenerator.create_handle (g : ReuseHandleGenerator) :
    Nat × ReuseHandleGenerator :=
  match g.deletedHandles with
  | h :: rest => (h, { g with deletedHandles := rest })
  | [] =>
      ((g.handleGen.create_handle).1,
       { g with handleGen := (g.handleGen.create_handle).2 })

/-- The `destroy_handle(handle)`: `deletedHandles_.push_front(handle)` and
return `true` — no validity check of any kind; the C++ only returns `false`
when `push_front` throws (allocation failure), which the model excludes. -/
def ReuseHandleGenerator.destroy_handle (g : ReuseHandleGenerator)
    (h : Nat) : Bool × ReuseHandleGenerator :=
  (true, { g with deletedHandles := h :: g.deletedHandles })

def ReuseHandleGenerator.reset (g : ReuseHandleGenerator) :
    ReuseHandleGenerator :=
  { deletedHandles := [], handleGen := g.handleGen.reset }

/-- The `verify_handle`: could have been given, and not currently in the pool. -/
def ReuseHandleGenerator.verify_handle (g : ReuseHandleGenerator)
    (h : Nat) : Bool :=
  g.handleGen.verify_handle h && !g.deletedHandles.contains h

/-- The `DefaultHandleGenerator` (oki_handle_gen.h line 223): the Linear
variant. -/
def DefaultHandleGenerator := LinearHandleGenerator

/-! ### Call sequences against one generator

A claim-level harness: a sequence of `create`/`destroy`/`reset` calls, run
against one generator, with the ghost bookkeeping the spec's guarantees are
stated in: the list of currently-live handles (issued since the last reset
and not destroyed — spec §3: reset invalidates all previously issued
handles) and the list of every value any `create` call ever returned. -/
inductive HOp where
  | create : HOp
  | destroy : Nat → HOp
  | reset : HOp
deriving DecidableEq, Repr

def countCreates (ops : List HOp) : Nat :=
  ops.countP (fun op => match op with | .create => true | _ => false)

structure LinearRun where
  gen : LinearHandleGenerator := {}
  live : List Nat := []
  issued : List Nat := []
deriving DecidableEq, Repr

def linear_step (s : LinearRun) : HOp → LinearRun
  | .create =>
      { gen := (s.gen.create_handle).2,
        live := s.live ++ [(s.gen.create_handle).1],
        issued := s.issued ++ [(s.gen.create_handle).1] }
  | .destroy h =>
      { s with gen := (s.gen.destroy_handle h).2,
               live := s.live.filter (fun x => x ≠ h) }
  | .reset => { s with gen := s.gen.reset, live := [] }

def linear_run (ops : List HOp) (s : LinearRun) : LinearRun :=
  ops.foldl linear_step s

structure DebugRun where
  gen : DebugHandleGenerator := {}
  live : List Nat := []
  issued : List Nat := []
deriving DecidableEq, Repr

def debug_step (s : DebugRun) : HOp → DebugRun
  | .create =>
      { gen := (s.gen.create_handle).2,
        live := s.live ++ [(s.gen.create_handle).1],
        issued := s.issued ++ [(s.gen.create_handle).1] }
  | .destroy h =>
      { s with gen := (s.gen.destroy_handle h).2,
               live := s.live.filter (fun x => x ≠ h) }
  | .reset => { s with gen := s.gen.reset, live := [] }

def debug_run (ops : List HOp) (s : DebugRun) : DebugRun :=
  ops.foldl debug_step s

structure ReuseRun where
  gen : ReuseHandleGenerator := {}
  live : List Nat := []
  issued : List Nat := []
deriving DecidableEq, Repr

def reuse_step (s : ReuseRun) : HOp → ReuseRun
  | .create =>
      { gen := (s.gen.create_handle).2,
        live := s.live ++ [(s.gen.create_handle).1],
        issued := s.issued ++ [(s.gen.create_handle).1] }
  | .destroy h =>
      { s with gen := (s.gen.destroy_handle h).2,
               live := s.live.filter (fun x => x ≠ h) }
  | .reset => { s with gen := s.gen.reset, live := [] }

def reuse_run (ops : List HOp) (s : ReuseRun) : ReuseRun :=
  ops.foldl reuse_step s

/-- Proper use of the Reuse generator: every `destroy` targets a handle that
is currently live (the header's stated assumption: "this assumes that the
user is properly deleting handles"). -/
def reuse_proper : List HOp → ReuseRun → Bool
  | [], _ => true
  | op :: ops, s =>
      (match op with
       | .destroy h => decide (h ∈ s.live)
       | _ => true)
      && reuse_proper ops (reuse_step s op)

section HandleInvariants

/-- Run invariant of the Linear generator. -/
def LinearInv (s : LinearRun) : Prop :=
  s.live.Nodup ∧ (∀ h ∈ s.live, 0 < h ∧ h < s.gen.counter)
  ∧ (∀ h ∈ s.issued, 0 < h) ∧ 1 ≤ s.gen.counter

/-- Run invariant of the Debug generator. -/
def DebugInv (s : DebugRun) : Prop :=
  s.live.Nodup
  ∧ (∀ h ∈ s.live,
      0 < h ∧ h < s.gen.handleGen.counter ∧ h ∉ s.gen.invalidHandles)
  ∧ (∀ h ∈ s.gen.invalidHandles, h < s.gen.handleGen.counter)
  ∧ (∀ h ∈ s.issued, 0 < h) ∧ 1 ≤ s.gen.handleGen.counter

/-- Run invariant of the Reuse generator under proper deletion. -/
def ReuseInv (s : ReuseRun) : Prop :=
  s.live.Nodup ∧ s.gen.deletedHandles.Nodup
  ∧ (∀ h ∈ s.live,
      0 < h ∧ h < s.gen.handleGen.counter ∧ h ∉ s.gen.deletedHandles)
  ∧ (∀ h ∈ s.gen.deletedHandles, 0 < h ∧ h < s.gen.handleGen.counter)
  ∧ (∀ h ∈ s.issued, 0 < h) ∧ 1 ≤ s.gen.handleGen.counter

theorem countCreates_create (ops : List HOp) :
    countCreates (HOp.create :: ops) = countCreates ops + 1 := by
  simp [countCreates, List.countP_cons]

theorem countCreates_destroy (h : Nat) (ops : List HOp) :
    countCreates (HOp.destroy h :: ops) = countCreates ops := by
  simp [countCreates, List.countP_cons]

theorem countCreates_reset (ops : List HOp) :
    countCreates (HOp.reset :: ops) = countCreates ops := by
  simp [countCreates, List.countP_cons]

theorem linear_run_inv : ∀ (ops : List HOp) (s : LinearRun),
    LinearInv s → s.gen.counter + countCreates ops < handleModulus →
    LinearInv (linear_run ops s) := by
  intro ops
  induction ops with
  | nil => intro s hi _; exact hi
  | cons op ops ih =>
      intro s hi hbud
      obtain ⟨hnd, hlv, hiss, hcnt⟩ := hi
      rw [linear_run, List.foldl_cons]
      cases op with
      | create =>
          rw [countCreates_create] at hbud
          have hmod : (s.gen.counter + 1) % handleModulus = s.gen.counter + 1 :=
            Nat.mod_eq_of_lt (by omega)
          refine ih _ ⟨?_, ?_, ?_, ?_⟩ ?_
          · simp only [linear_step, LinearHandleGenerator.create_handle, advance]
            rw [List.nodup_append]
            refine ⟨hnd, List.nodup_singleton _, ?_⟩
            intro x hx
            have := hlv x hx
            simp
            omega
          · intro h hh
            simp only [linear_step, LinearHandleGenerator.create_handle,
              advance] at hh ⊢
            rw [hmod]
            rcases List.mem_append.mp hh with hold | hnew
            · have := hlv h hold
              omega
            · simp at hnew
              omega
          · intro h hh
            simp only [linear_step, LinearHandleGenerator.create_handle,
              advance] at hh
            rcases List.mem_append.mp hh with hold | hnew
            · exact hiss h hold
            · simp at hnew
              omega
          · simp only [linear_step, LinearHandleGenerator.create_handle, advance]
            rw [hmod]
            omega
          · simp only [linear_step, LinearHandleGenerator.create_handle, advance]
            rw [hmod]
            omega
      | destroy h =>
          rw [countCreates_destroy] at hbud
          have hstep : linear_step s (.destroy h) =
              { s with live := s.live.filter (fun x => x ≠ h) } := by
            simp [linear_step, LinearHandleGenerator.destroy_handle]
          rw [hstep]
          refine ih _ ⟨hnd.filter _, ?_, hiss, hcnt⟩ hbud
          intro x hx
          exact hlv x (List.mem_of_mem_filter hx)
      | reset =>
          rw [countCreates_reset] at hbud
          refine ih _ ⟨List.nodup_nil, ?_, hiss, le_refl _⟩ ?_
          · intro x hx; simp [linear_step] at hx
          · simp only [linear_step, LinearHandleGenerator.reset,
              get_first_valid_handle]
            omega

theorem debug_run_inv : ∀ (ops : List HOp) (s : DebugRun),
    DebugInv s → s.gen.handleGen.counter + countCreates ops < handleModulus →
    DebugInv (debug_run ops s) := by
  intro ops
  induction ops with
  | nil => intro s hi _; exact hi
  | cons op ops ih =>
      intro s hi hbud
      obtain ⟨hnd, hlv, hinv, hiss, hcnt⟩ := hi
      rw [debug_run, List.foldl_cons]
      cases op with
      | create =>
          rw [countCreates_create] at hbud
          have hmod : (s.gen.handleGen.counter + 1) % handleModulus =
              s.gen.handleGen.counter + 1 := Nat.mod_eq_of_lt (by omega)
          refine ih _ ⟨?_, ?_, ?_, ?_, ?_⟩ ?_
          · simp only [debug_step, DebugHandleGenerator.create_handle,
              LinearHandleGenerator.create_handle, advance]
            rw [List.nodup_append]
            refine ⟨hnd, List.nodup_singleton _, ?_⟩
            intro x hx
            have := hlv x hx
            simp
            omega
          · intro h hh
            simp only [debug_step, DebugHandleGenerator.create_handle,
              LinearHandleGenerator.create_handle, advance] at hh ⊢
            rw [hmod]
            rcases List.mem_append.mp hh with hold | hnew
            · have := hlv h hold
              refine ⟨this.1, by omega, this.2.2⟩
            · simp at hnew
              subst hnew
              refine ⟨by omega, by omega, ?_⟩
              intro hc
              have := hinv _ hc
              omega
          · intro h hh
            simp only [debug_step, DebugHandleGenerator.create_handle,
              LinearHandleGenerator.create_handle, advance] at hh ⊢
            rw [hmod]
            have := hinv h hh
            omega
          · intro h hh
            simp only [debug_step, DebugHandleGenerator.create_handle,
              LinearHandleGenerator.create_handle, advance] at hh
            rcases List.mem_append.mp hh with hold | hnew
            · exact hiss h hold
            · simp at hnew
              omega
          · simp only [debug_step, DebugHandleGenerator.create_handle,
              LinearHandleGenerator.create_handle, advance]
            rw [hmod]
            omega
          · simp only [debug_step, DebugHandleGenerator.create_handle,
              LinearHandleGenerator.create_handle, advance]
            rw [hmod]
            omega
      | destroy h =>
          rw [countCreates_destroy] at hbud
          by_cases hver : s.gen.handleGen.verify_handle h = true
          · by_cases hcon : s.gen.invalidHandles.contains h = true
            · have hmem : h ∈ s.gen.invalidHandles := by simpa using hcon
              have hstep : debug_step s (.destroy h) =
                  { s with live := s.live.filter (fun x => x ≠ h) } := by
                simp [debug_step, DebugHandleGenerator.destroy_handle,
                  hver, hmem]
              rw [hstep]
              refine ih _ ⟨hnd.filter _, ?_, hinv, hiss, hcnt⟩ hbud
              intro x hx
              exact hlv x (List.mem_of_mem_filter hx)
            · have hmem : h ∉ s.gen.invalidHandles := by simpa using hcon
              have hstep : debug_step s (.destroy h) =
                  { s with
                    gen := { invalidHandles := h :: s.gen.invalidHandles,
                             handleGen := s.gen.handleGen },
                    live := s.live.filter (fun x => x ≠ h) } := by
                simp [debug_step, DebugHandleGenerator.destroy_handle,
                  hver, hmem]
              rw [hstep]
              refine ih _ ⟨hnd.filter _, ?_, ?_, hiss, hcnt⟩ hbud
              · intro x hx
                dsimp only
                have hx' := List.mem_of_mem_filter hx
                have hxne : x ≠ h := by
                  have := List.of_mem_filter hx
                  simpa using this
                have := hlv x hx'
                refine ⟨this.1, this.2.1, ?_⟩
                intro hc
                rcases List.mem_cons.mp hc with h1 | h2
                · exact hxne h1
                · exact this.2.2 h2
              · intro x hx
                dsimp only at hx ⊢
                rcases List.mem_cons.mp hx with rfl | h2
                · rw [LinearHandleGenerator.verify_handle] at hver
                  simp at hver
                  omega
                · exact hinv x h2
          · have hstep : debug_step s (.destroy h) =
                { s with live := s.live.filter (fun x => x ≠ h) } := by
              simp [debug_step, DebugHandleGenerator.destroy_handle, hver]
            rw [hstep]
            refine ih _ ⟨hnd.filter _, ?_, hinv, hiss, hcnt⟩ hbud
            intro x hx
            exact hlv x (List.mem_of_mem_filter hx)
      | reset =>
          rw [countCreates_reset] at hbud
          refine ih _ ⟨List.nodup_nil, ?_, ?_, hiss, le_refl _⟩ ?_
          · intro x hx; simp [debug_step] at hx
          · intro x hx
            simp [debug_step, DebugHandleGenerator.reset] at hx
          · simp only [debug_step, DebugHandleGenerator.reset,
              LinearHandleGenerator.reset, get_first_valid_handle]
            omega

theorem reuse_run_inv : ∀ (ops : List HOp) (s : ReuseRun),
    ReuseInv s → s.gen.handleGen.counter + countCreates ops < handleModulus →
    reuse_proper ops s = true →
    ReuseInv (reuse_run ops s) := by
  intro ops
  induction ops with
  | nil => intro s hi _ _; exact hi
  | cons op ops ih =>
      intro s hi hbud hp
      obtain ⟨hnd, hpool, hlv, hpm, hiss, hcnt⟩ := hi
      rw [reuse_run, List.foldl_cons]
      cases op with
      | create =>
          rw [countCreates_create] at hbud
          have hp2 : reuse_proper ops (reuse_step s .create) = true := by
            rw [reuse_proper, Bool.and_eq_true] at hp
            · exact hp.2
            · intro x hcon
              exact HOp.noConfusion hcon
          rcases hpd : s.gen.deletedHandles with _ | ⟨h0, rest⟩
          · -- empty pool: mint from the counter
            have hmod : (s.gen.handleGen.counter + 1) % handleModulus =
                s.gen.handleGen.counter + 1 := Nat.mod_eq_of_lt (by omega)
            refine ih _ ⟨?_, ?_, ?_, ?_, ?_, ?_⟩ ?_ hp2
            · simp only [reuse_step, ReuseHandleGenerator.create_handle, hpd,
                LinearHandleGenerator.create_handle, advance]
              rw [List.nodup_append]
              refine ⟨hnd, List.nodup_singleton _, ?_⟩
              intro x hx
              have := hlv x hx
              simp
              omega
            · simp only [reuse_step, ReuseHandleGenerator.create_handle, hpd]
              exact List.nodup_nil
            · intro h hh
              simp only [reuse_step, ReuseHandleGenerator.create_handle, hpd,
                LinearHandleGenerator.create_handle, advance] at hh ⊢
              rw [hmod]
              rcases List.mem_append.mp hh with hold | hnew
              · have := hlv h hold
                rw [hpd] at this
                refine ⟨this.1, by omega, this.2.2⟩
              · simp at hnew
                subst hnew
                exact ⟨by omega, by omega, by simp⟩
            · intro h hh
              simp only [reuse_step, ReuseHandleGenerator.create_handle,
                hpd] at hh
              simp at hh
            · intro h hh
              simp only [reuse_step, ReuseHandleGenerator.create_handle, hpd,
                LinearHandleGenerator.create_handle, advance] at hh
              rcases List.mem_append.mp hh with hold | hnew
              · exact hiss h hold
              · simp at hnew
                omega
            · simp only [reuse_step, ReuseHandleGenerator.create_handle, hpd,
                LinearHandleGenerator.create_handle, advance]
              rw [hmod]
              omega
            · simp only [reuse_step, ReuseHandleGenerator.create_handle, hpd,
                LinearHandleGenerator.create_handle, advance]
              rw [hmod]
              omega
          · -- reuse the most recently pooled handle
            have hh0 := hpm h0 (by rw [hpd]; simp)
            refine ih _ ⟨?_, ?_, ?_, ?_, ?_, ?_⟩ ?_ hp2
            · simp only [reuse_step, ReuseHandleGenerator.create_handle, hpd]
              rw [List.nodup_append]
              refine ⟨hnd, List.nodup_singleton _, ?_⟩
              intro x hx
              have := (hlv x hx).2.2
              rw [hpd] at this
              simp
              intro heq
              subst heq
              exact this (by simp)
            · simp only [reuse_step, ReuseHandleGenerator.create_handle, hpd]
              rw [hpd] at hpool
              exact (List.nodup_cons.mp hpool).2
            · intro h hh
              simp only [reuse_step, ReuseHandleGenerator.create_handle,
                hpd] at hh ⊢
              rcases List.mem_append.mp hh with hold | hnew
              · have := hlv h hold
                rw [hpd] at this
                exact ⟨this.1, this.2.1, fun hc => this.2.2 (by simp [hc])⟩
              · simp at hnew
                subst hnew
                rw [hpd] at hpool
                exact ⟨hh0.1, hh0.2, (List.nodup_cons.mp hpool).1⟩
            · intro h hh
              simp only [reuse_step, ReuseHandleGenerator.create_handle,
                hpd] at hh ⊢
              exact hpm h (by rw [hpd]; simp [hh])
            · intro h hh
              simp only [reuse_step, ReuseHandleGenerator.create_handle,
                hpd] at hh
              rcases List.mem_append.mp hh with hold | hnew
              · exact hiss h hold
              · simp at hnew
                subst hnew
                exact hh0.1
            · simp only [reuse_step, ReuseHandleGenerator.create_handle, hpd]
              exact hcnt
            · simp only [reuse_step, ReuseHandleGenerator.create_handle, hpd]
              omega
      | destroy h =>
          rw [countCreates_destroy] at hbud
          have hps := hp
          rw [reuse_proper, Bool.and_eq_true] at hps
          obtain ⟨hp1, hp2⟩ := hps
          have hlive : h ∈ s.live := of_decide_eq_true hp1
          have hprop := hlv h hlive
          refine ih _ ⟨?_, ?_, ?_, ?_, hiss, hcnt⟩ hbud hp2
          · exact hnd.filter _
          · simp only [reuse_step, ReuseHandleGenerator.destroy_handle]
            exact List.nodup_cons.mpr ⟨hprop.2.2, hpool⟩
          · intro x hx
            have hx' := List.mem_of_mem_filter hx
            have hxne : x ≠ h := by
              have := List.of_mem_filter hx
              simpa using this
            have := hlv x hx'
            simp only [reuse_step, ReuseHandleGenerator.destroy_handle]
            refine ⟨this.1, this.2.1, ?_⟩
            intro hc
            rcases List.mem_cons.mp hc with h1 | h2
            · exact hxne h1
            · exact this.2.2 h2
          · intro x hx
            simp only [reuse_step, ReuseHandleGenerator.destroy_handle] at hx
            rcases List.mem_cons.mp hx with rfl | h2
            · exact ⟨hprop.1, hprop.2.1⟩
            · exact hpm x h2
      | reset =>
          rw [countCreates_reset] at hbud
          have hp2 : reuse_proper ops (reuse_step s .reset) = true := by
            rw [reuse_proper, Bool.and_eq_true] at hp
            · exact hp.2
            · intro x hcon
              exact HOp.noConfusion hcon
          refine ih _ ⟨List.nodup_nil, List.nodup_nil, ?_, ?_, hiss, le_refl _⟩
            ?_ hp2
          · intro x hx; simp [reuse_step] at hx
          · intro x hx
            simp [reuse_step, ReuseHandleGenerator.reset] at hx
          · simp only [reuse_step, ReuseHandleGenerator.reset,
              LinearHandleGenerator.reset, get_first_valid_handle]
            omega

end HandleInvariants

def initLinearRun : LinearRun := {}

def initDebugRun : DebugRun := {}

def initReuseRun : ReuseRun := {}

theorem LinearInv_init : LinearInv initLinearRun :=
  ⟨List.nodup_nil, fun h hh => absurd hh (List.not_mem_nil h),
   fun h hh => absurd hh (List.not_mem_nil h), Nat.le_refl 1⟩

theorem DebugInv_init : DebugInv initDebugRun :=
  ⟨List.nodup_nil, fun h hh => absurd hh (List.not_mem_nil h),
   fun h hh => absurd hh (List.not_mem_nil h),
   fun h hh => absurd hh (List.not_mem_nil h), Nat.le_refl 1⟩

theorem ReuseInv_init : ReuseInv initReuseRun :=
  ⟨List.nodup_nil, List.nodup_nil,
   fun h hh => absurd hh (List.not_mem_nil h),
   fun h hh => absurd hh (List.not_mem_nil h),
   fun h hh => absurd hh (List.not_mem_nil h), Nat.le_refl 1⟩

theorem linear_verify_invalid (g : LinearHandleGenerator) :
    g.verify_handle get_invalid_handle_constant = false := by
  simp [LinearHandleGenerator.verify_handle, is_bad_handle]

theorem debug_verify_invalid (g : DebugHandleGenerator) :
    g.verify_handle get_invalid_handle_constant = false := by
  rw [DebugHandleGenerator.verify_handle, linear_verify_invalid]
  rfl

theorem reuse_verify_invalid (g : ReuseHandleGenerator) :
    g.verify_handle get_invalid_handle_constant = false := by
  rw [ReuseHandleGenerator.verify_handle, linear_verify_invalid]
  rfl

/-- Claim C6, as stated, is false: on the Reuse generator the sequence
`destroy(sentinel); create()` makes `create()` return the invalid sentinel
(the pool is recycled with no validity check). -/
theorem claim_C6_counterexample :
    get_invalid_handle_constant ∈
      (reuse_run [HOp.destroy get_invalid_handle_constant, HOp.create]
        initReuseRun).issued := by
  decide

/-- Claim C6 (amended).  For the Linear and Debug generators, any
sequence of fewer than `2^64 - 1` `create` calls (with arbitrary `destroy`
and `reset` calls) keeps the live handles pairwise distinct and never makes
`create` return the invalid sentinel; the same holds for the Reuse
generator provided every `destroy` targets a currently-live handle (the
header's stated usage assumption).  On all three variants `verify` of the
sentinel is `false` in every state. -/
theorem claim_C6_amended (o1 o2 o3 : List HOp)
    (h1 : countCreates o1 + 1 < handleModulus)
    (h2 : countCreates o2 + 1 < handleModulus)
    (h3 : countCreates o3 + 1 < handleModulus)
    (hp : reuse_proper o3 initReuseRun = true) :
    ((linear_run o1 initLinearRun).live.Nodup
      ∧ get_invalid_handle_constant ∉ (linear_run o1 initLinearRun).issued)
    ∧ ((debug_run o2 initDebugRun).live.Nodup
      ∧ get_invalid_handle_constant ∉ (debug_run o2 initDebugRun).issued)
    ∧ ((reuse_run o3 initReuseRun).live.Nodup
      ∧ get_invalid_handle_constant ∉ (reuse_run o3 initReuseRun).issued)
    ∧ (∀ g : LinearHandleGenerator,
        g.verify_handle get_invalid_handle_constant = false)
    ∧ (∀ g : DebugHandleGenerator,
        g.verify_handle get_invalid_handle_constant = false)
    ∧ (∀ g : ReuseHandleGenerator,
        g.verify_handle get_invalid_handle_constant = false) := by
  have hL := linear_run_inv o1 initLinearRun LinearInv_init (by
      have hg : initLinearRun.gen.counter = 1 := rfl
      omega)
  have hD := debug_run_inv o2 initDebugRun DebugInv_init (by
      have hg : initDebugRun.gen.handleGen.counter = 1 := rfl
      omega)
  have hR := reuse_run_inv o3 initReuseRun ReuseInv_init (by
      have hg : initReuseRun.gen.handleGen.counter = 1 := rfl
      omega) hp
  refine ⟨⟨hL.1, ?_⟩, ⟨hD.1, ?_⟩, ⟨hR.1, ?_⟩,
    linear_verify_invalid, debug_verify_invalid, reuse_verify_invalid⟩
  · intro hmem
    have := hL.2.2.1 _ hmem
    simp [get_invalid_handle_constant] at this
  · intro hmem
    have := hD.2.2.2.1 _ hmem
    simp [get_invalid_handle_constant] at this
  · intro hmem
    have := hR.2.2.2.2.1 _ hmem
    simp [get_invalid_handle_constant] at this

/-- Witness for `claim_C6_amended` at concrete call sequences. -/
theorem claim_C6_witness :
    ((linear_run [HOp.create, HOp.destroy 1, HOp.reset, HOp.create]
        initLinearRun).live.Nodup
      ∧ get_invalid_handle_constant ∉
        (linear_run [HOp.create, HOp.destroy 1, HOp.reset, HOp.create]
          initLinearRun).issued)
    ∧ ((debug_run [HOp.create, HOp.destroy 1, HOp.destroy 1]
        initDebugRun).live.Nodup
      ∧ get_invalid_handle_constant ∉
        (debug_run [HOp.create, HOp.destroy 1, HOp.destroy 1]
          initDebugRun).issued)
    ∧ ((reuse_run [HOp.create, HOp.destroy 1, HOp.create]
        initReuseRun).live.Nodup
      ∧ get_invalid_handle_constant ∉
        (reuse_run [HOp.create, HOp.destroy 1, HOp.create]
          initReuseRun).issued)
    ∧ (∀ g : LinearHandleGenerator,
        g.verify_handle get_invalid_handle_constant = false)
    ∧ (∀ g : DebugHandleGenerator,
        g.verify_handle get_invalid_handle_constant = false)
    ∧ (∀ g : ReuseHandleGenerator,
        g.verify_handle get_invalid_handle_constant = false) :=
  claim_C6_amended _ _ _ (by decide) (by decide) (by decide) (by decide)

/-- Claim C7, as stated, is false: the Reuse generator's
`destroy_handle` performs no validity check; destroying the invalid
sentinel returns `true`, not `false`. -/
theorem claim_C7_counterexample :
    ((({} : ReuseHandleGenerator).destroy_handle
        get_invalid_handle_constant).1 = true)
    ∧ ¬((({} : ReuseHandleGenerator).destroy_handle
        get_invalid_handle_constant).1 = false) := by
  exact ⟨rfl, by simp [ReuseHandleGenerator.destroy_handle]⟩

/-- Claim C7 (amended).  Only the Debug generator rejects bad destroys:
`destroy` of the sentinel or of a never-issued handle returns `false` on
the Debug variant, and after a `create` the first `destroy` of the new
handle returns `true` while the second returns `false` (double-destroy
detected).  The Reuse variant's `destroy` performs no validity check and
returns `true` for every handle (its only `false` path is an allocation
failure, which the model excludes). -/
theorem claim_C7_amended :
    (∀ (g : DebugHandleGenerator) (h : Nat),
      (is_bad_handle h = true ∨ g.handleGen.counter ≤ h) →
        (g.destroy_handle h).1 = false)
    ∧ (∀ g : DebugHandleGenerator,
        0 < g.handleGen.counter →
        g.handleGen.counter + 1 < handleModulus →
        g.handleGen.counter ∉ g.invalidHandles →
        ((g.create_handle.2.destroy_handle g.create_handle.1).1 = true
         ∧ (((g.create_handle.2.destroy_handle g.create_handle.1).2).destroy_handle
              g.create_handle.1).1 = false))
    ∧ (∀ (g : ReuseHandleGenerator) (h : Nat),
        (g.destroy_handle h).1 = true) := by
  refine ⟨?_, ?_, fun g h => rfl⟩
  · intro g h hbad
    rw [DebugHandleGenerator.destroy_handle]
    rw [if_neg]
    rw [LinearHandleGenerator.verify_handle]
    rcases hbad with hb | hc
    · simp [hb]
    · simp
      omega
  · intro g hpos hmod hnotin
    have hcr : g.create_handle.1 = g.handleGen.counter := rfl
    have hcr2 : g.create_handle.2.handleGen.counter =
        (g.handleGen.counter + 1) % handleModulus := rfl
    have hmodeq : (g.handleGen.counter + 1) % handleModulus =
        g.handleGen.counter + 1 := Nat.mod_eq_of_lt (by omega)
    have hver : g.create_handle.2.handleGen.verify_handle
        g.create_handle.1 = true := by
      rw [LinearHandleGenerator.verify_handle]
      simp only [hcr]
      have : g.create_handle.2.handleGen.counter = g.handleGen.counter + 1 := by
        rw [hcr2, hmodeq]
      rw [this]
      simp [is_bad_handle, get_invalid_handle_constant]
      omega
    have hinv1 : g.create_handle.2.invalidHandles = g.invalidHandles := rfl
    constructor
    · rw [DebugHandleGenerator.destroy_handle, if_pos hver]
      rw [hinv1, hcr]
      rw [if_neg (by simpa using hnotin)]
    · have hcont : g.create_handle.2.invalidHandles.contains
          g.create_handle.1 = false := by
        rw [hinv1, hcr]
        simpa using hnotin
      have hd1 : g.create_handle.2.destroy_handle g.create_handle.1 =
          (true, { g.create_handle.2 with
            invalidHandles :=
              g.create_handle.1 :: g.create_handle.2.invalidHandles }) := by
        rw [DebugHandleGenerator.destroy_handle, if_pos hver,
          if_neg (by rw [hcont]; exact Bool.false_ne_true)]
      rw [hd1]
      dsimp only
      rw [DebugHandleGenerator.destroy_handle]
      by_cases hv2 : ({ g.create_handle.2 with
          invalidHandles :=
            g.create_handle.1 ::
              g.create_handle.2.invalidHandles } :
          DebugHandleGenerator).handleGen.verify_handle
          g.create_handle.1 = true
      · rw [if_pos hv2, if_pos (by simp)]
      · rw [if_neg hv2]

/-- Witness for `claim_C7_amended` at concrete generators. -/
theorem claim_C7_witness :
    ((({} : DebugHandleGenerator).destroy_handle 0).1 = false)
    ∧ ((({} : DebugHandleGenerator).create_handle.2.destroy_handle
          ({} : DebugHandleGenerator).create_handle.1).1 = true
       ∧ (((({} : DebugHandleGenerator).create_handle.2.destroy_handle
            ({} : DebugHandleGenerator).create_handle.1).2).destroy_handle
            ({} : DebugHandleGenerator).create_handle.1).1 = false)
    ∧ ((({} : ReuseHandleGenerator).destroy_handle 7).1 = true) :=
  ⟨claim_C7_amended.1 {} 0 (Or.inl (by decide)),
   claim_C7_amended.2.1 {} (by decide) (by decide) (by decide),
   claim_C7_amended.2.2 {} 7⟩

/-- Claim C8, as stated, is false: the pool is served last-in first-out,
not first-in.  From a fresh Reuse generator, after `h1 = create() = 1`,
`h2 = create() = 2`, `destroy(h1)`, `destroy(h2)`, the next `create()`
returns `2` (the latest-destroyed), not `h1 = 1` as the claim requires. -/
theorem claim_C8_counterexample :
    (reuse_run [HOp.create, HOp.create, HOp.destroy 1, HOp.destroy 2,
        HOp.create] initReuseRun).issued = [1, 2, 2]
    ∧ ((2 : Nat) ≠ 1) := by
  exact ⟨by decide, by decide⟩

/-- Claim C8 (amended).  The Reuse generator serves destroyed handles
before minting new ones, in last-in first-out order: after destroying `a`
and then `b`, the next `create` returns `b`; in particular, after
destroying a single handle `a`, the next `create` returns `a`.  `create`
pops the pool's front when the pool is non-empty and only mints from the
counter when the pool is empty. -/
theorem claim_C8_amended :
    (∀ (g : ReuseHandleGenerator) (a b : Nat),
      ((((g.destroy_handle a).2.destroy_handle b).2).create_handle).1 = b)
    ∧ (∀ (g : ReuseHandleGenerator) (a : Nat),
      (((g.destroy_handle a).2).create_handle).1 = a)
    ∧ (∀ (g : ReuseHandleGenerator) (h : Nat) (r : List Nat),
      g.deletedHandles = h :: r → (g.create_handle).1 = h)
    ∧ (∀ g : ReuseHandleGenerator,
      g.deletedHandles = [] →
        (g.create_handle).1 = (g.handleGen.create_handle).1) := by
  refine ⟨fun g a b => rfl, fun g a => rfl, ?_, ?_⟩
  · intro g h r hpool
    rw [ReuseHandleGenerator.create_handle]
    rw [hpool]
  · intro g hpool
    rw [ReuseHandleGenerator.create_handle]
    rw [hpool]

/-- Witness for `claim_C8_amended` at concrete generators. -/
theorem claim_C8_witness :
    ((((({} : ReuseHandleGenerator).destroy_handle 5).2.destroy_handle
        9).2.create_handle).1 = 9)
    ∧ (((({} : ReuseHandleGenerator).destroy_handle 4).2.create_handle).1 = 4)
    ∧ ((({ deletedHandles := [3] } : ReuseHandleGenerator).create_handle).1 = 3)
    ∧ ((({} : ReuseHandleGenerator).create_handle).1 =
        (({} : ReuseHandleGenerator).handleGen.create_handle).1) :=
  ⟨claim_C8_amended.1 {} 5 9, claim_C8_amended.2.1 {} 4,
   claim_C8_amended.2.2.1 { deletedHandles := [3] } 3 [] rfl,
   claim_C8_amended.2.2.2 {} rfl⟩

/-! ## The Type-Indexed Store: `ComponentManager`

Model of `oki::ComponentManager` (src/oki/oki_component.h).  The C++ store
is `std::unordered_map<TypeIndex, ErasedContainer> data_`; a `TypeIndex` is
modelled as a `Nat`, the map as an association list, and each erased
`AssocSortedVector` as a table `List (Nat × V)` over one value type `V`
(the containers are type-erased, so one payload type models all component
types).  Each entry carries a ghost instance id, minted from a ghost
counter, standing for the C++ table object's identity (`unordered_map`
never moves its values, which is what "the same table instance" means in
the spec); the ghost state does not influence any computed result. -/

/-- Model of `oki::Entity`: an opaque wrapper of a handle whose
default-constructed value is the invalid handle constant
(oki_component.h line 25). -/
structure Entity where
  handle_ : Nat := get_invalid_handle_constant
deriving DecidableEq, Repr

/-- The `TypeIndex` of `int` — `get_component_view` touches
`get_or_create_cont_<int>()` before the requested types.  `get_type`
assigns every C++ type a distinct opaque index; the model pins `int` at
index `0`. -/
def intTypeId : Nat := 0

/-- Model of `oki::ComponentManager`: the store `data_` (type index, ghost
instance id, table), the ghost instance counter, and the
`DefaultHandleGenerator` (= Linear) `handGen_`. -/
structure ComponentManager (V : Type) where
  data_ : List (Nat × Nat × List (Nat × V)) := []
  nextInst : Nat := 0
  handGen_ : LinearHandleGenerator := {}
deriving DecidableEq

/-- Model of `data_.find(get_type<Type>())`: the (ghost id, table) entry
for type index `t`, if present. -/
def ComponentManager.getEntry {V : Type} (m : ComponentManager V) (t : Nat) :
    Option (Nat × List (Nat × V)) :=
  (m.data_.find? (fun p => p.1 == t)).map Prod.snd

/-- The table stored for type index `t`, if present. -/
def ComponentManager.tableOf {V : Type} (m : ComponentManager V) (t : Nat) :
    Option (List (Nat × V)) :=
  (m.getEntry t).map Prod.snd

/-- The ghost instance id of the table stored for type index `t`. -/
def ComponentManager.instOf {V : Type} (m : ComponentManager V) (t : Nat) :
    Option Nat :=
  (m.getEntry t).map Prod.fst

/-- The list of type indices that currently have a table. -/
def tableKeys {V : Type} (m : ComponentManager V) : List Nat :=
  m.data_.map Prod.fst

/-- Exactly one table per type index (the `unordered_map` key invariant). -/
def NodupKeys {V : Type} (m : ComponentManager V) : Prop :=
  (tableKeys m).Nodup

/-- Model of `get_or_create_cont_<Type>()` (oki_component.h lines
414–429): look the type index up; on a miss, emplace a fresh empty
container (the ghost counter mints its identity). -/
def ComponentManager.get_or_create_cont_ {V : Type} (m : ComponentManager V)
    (t : Nat) : ComponentManager V :=
  match m.getEntry t with
  | some _ => m
  | none =>
      { m with data_ := m.data_ ++ [(t, m.nextInst, [])],
               nextInst := m.nextInst + 1 }

/-- Replace the table stored under type index `t` (the C++ mutates the
container in place through the reference `get_as` returns; identity and
key are untouched). -/
def ComponentManager.setTable {V : Type} (m : ComponentManager V) (t : Nat)
    (b : List (Nat × V)) : ComponentManager V :=
  { m with data_ := m.data_.map (fun p => if p.1 == t then (p.1, p.2.1, b) else p) }

/-- Model of `AssocSortedVector::emplace_unchecked(key, args...)` (lines
129–138): insert at `find_key_maybe_max_(key)` — the end when the table is
empty or `key` is maximal, otherwise the `lower_bound` position — without
any duplicate check. -/
def emplace_unchecked {V : Type} (key : Nat) (v : V) (l : List (Nat × V)) :
    List (Nat × V) :=
  match l.getLast? with
  | none => l ++ [(key, v)]
  | some p =>
      if p.1 < key then l ++ [(key, v)]
      else l.takeWhile (fun q => decide (q.1 < key))
        ++ (key, v) :: l.dropWhile (fun q => decide (q.1 < key))

/-- Model of `create_entity()` (lines 62–68). -/
def ComponentManager.create_entity {V : Type} (m : ComponentManager V) :
    Entity × ComponentManager V :=
  let r := m.handGen_.create_handle
  (⟨r.1⟩, { m with handGen_ := r.2 })

/-- Model of `destroy_entity(entity)` (lines 80–83): delegates to
`handGen_.destroy_handle` and does not touch any component table. -/
def ComponentManager.destroy_entity {V : Type} (m : ComponentManager V)
    (e : Entity) : Bool × ComponentManager V :=
  let r := m.handGen_.destroy_handle e.handle_
  (r.1, { m with handGen_ := r.2 })

/-- Model of `emplace_component<Type>(entity, args...)` (lines 93–104):
`get_or_create_cont_`, then the container's checked `emplace`; returns
(the value at the returned iterator, the `inserted` flag) and the new
store.  `bind_component` delegates here. -/
def ComponentManager.emplace_component {V : Type} (m : ComponentManager V)
    (t : Nat) (e : Entity) (v : V) : (V × Bool) × ComponentManager V :=
  let m1 := m.get_or_create_cont_ t
  let r := emplace e.handle_ v ((m1.tableOf t).getD [])
  ((r.2.1, r.2.2), m1.setTable t r.1)

/-- Model of `bind_or_assign_component(entity, value)` (lines 132–144):
`get_or_create_cont_`, then the container's `insert_or_assign`. -/
def ComponentManager.bind_or_assign_component {V : Type}
    (m : ComponentManager V) (t : Nat) (e : Entity) (v : V) :
    (V × Bool) × ComponentManager V :=
  let m1 := m.get_or_create_cont_ t
  let r := insert_or_assign e.handle_ v ((m1.tableOf t).getD [])
  ((r.2.1, r.2.2), m1.setTable t r.1)

/-- Model of `emplace_component_unchecked<Type>` (lines 157–167):
`get_or_create_cont_`, then `emplace_unchecked`.
`bind_component_unchecked` delegates here. -/
def ComponentManager.emplace_component_unchecked {V : Type}
    (m : ComponentManager V) (t : Nat) (e : Entity) (v : V) :
    ComponentManager V :=
  let m1 := m.get_or_create_cont_ t
  m1.setTable t (emplace_unchecked e.handle_ v ((m1.tableOf t).getD []))

/-- Model of `remove_component<Type>(entity)` (lines 193–199): via
`call_on_cont_checked_` — a missing table yields the default `false` and
no store change; otherwise the container's `erase`. -/
def ComponentManager.remove_component {V : Type} (m : ComponentManager V)
    (t : Nat) (e : Entity) : Bool × ComponentManager V :=
  match m.tableOf t with
  | none => (false, m)
  | some b =>
      let r := erase e.handle_ b
      (r.2, m.setTable t r.1)

/-- Model of the template `erase_components<Type>()` (lines 204–210): via
`call_on_cont_checked_` — clears the container's contents when the table
exists, keeping the table itself. -/
def ComponentManager.erase_components_type {V : Type} (m : ComponentManager V)
    (t : Nat) : ComponentManager V :=
  match m.tableOf t with
  | none => m
  | some _ => m.setTable t []

/-- Model of the non-template `erase_components()` (lines 217–220):
`data_.clear();` — every table is removed from the store (only the ghost
counter and the handle generator survive). -/
def ComponentManager.erase_components {V : Type} (m : ComponentManager V) :
    ComponentManager V :=
  { m with data_ := [] }

/-- Model of `reserve_components<Type>(n)` (lines 328–333):
`get_or_create_cont_` then `reserve(n)`, which changes no contents. -/
def ComponentManager.reserve_components {V : Type} (m : ComponentManager V)
    (t : Nat) : ComponentManager V :=
  m.get_or_create_cont_ t

/-- Model of `get_component_view<Types...>()` (lines 384–393): it runs
`get_or_create_cont_<int>()`, then `get_or_create_cont_<Types>()` for
every requested type (the C++ evaluation order of the `std::tie` argument
pack is unspecified; the model fixes left-to-right, which yields the same
set of created tables).  The returned view is a tuple of references; only
the store effect is modelled. -/
def ComponentManager.get_component_view {V : Type} (m : ComponentManager V)
    (w : List Nat) : ComponentManager V :=
  (intTypeId :: w).foldl (fun a t => a.get_or_create_cont_ t) m

/-- Model of `for_each<Types...>(func)` (lines 299–319): gather the tables
with `try_get_cont_` (no creation); if any is missing, return early with
no callback call; otherwise run the intersection query.  Returns the list
of callback invocations and the (unchanged) store. -/
def ComponentManager.for_each {V : Type} (m : ComponentManager V)
    (w : List Nat) : List (List (Nat × V)) × ComponentManager V :=
  if (w.map m.tableOf).all Option.isSome then
    (variadic_set_intersection (w.map (fun t => (m.tableOf t).getD [])), m)
  else ([], m)

/-- A call against the store: every mutating member of `ComponentManager`
(const observers such as `has_component` touch nothing and are omitted). -/
inductive MOp (V : Type) where
  | bind (t : Nat) (e : Entity) (v : V)
  | bindOrAssign (t : Nat) (e : Entity) (v : V)
  | bindUnchecked (t : Nat) (e : Entity) (v : V)
  | remove (t : Nat) (e : Entity)
  | clearType (t : Nat)
  | clearAll
  | reserve (t : Nat)
  | getView (w : List Nat)
  | forEach (w : List Nat)
  | createEntity
  | destroyEntity (e : Entity)
deriving DecidableEq

/-- One store call, keeping only the store (results discarded). -/
def mstep {V : Type} (m : ComponentManager V) : MOp V → ComponentManager V
  | .bind t e v => (m.emplace_component t e v).2
  | .bindOrAssign t e v => (m.bind_or_assign_component t e v).2
  | .bindUnchecked t e v => m.emplace_component_unchecked t e v
  | .remove t e => (m.remove_component t e).2
  | .clearType t => m.erase_components_type t
  | .clearAll => m.erase_components
  | .reserve t => m.reserve_components t
  | .getView w => m.get_component_view w
  | .forEach w => (m.for_each w).2
  | .createEntity => (m.create_entity).2
  | .destroyEntity e => (m.destroy_entity e).2

/-- A call sequence against the store. -/
def mrun {V : Type} (o : List (MOp V)) (m : ComponentManager V) :
    ComponentManager V :=
  o.foldl mstep m

/-- Whether a call allocates the table for type index `t` when it is
missing: the binds and `reserve` for `t`, and `get_component_view` when
`t` is `int` or among the requested types. -/
def creates {V : Type} : MOp V → Nat → Bool
  | .bind u _ _, t => u == t
  | .bindOrAssign u _ _, t => u == t
  | .bindUnchecked u _ _, t => u == t
  | .reserve u, t => u == t
  | .getView w, t => (intTypeId :: w).contains t
  | _, _ => false

/-- Whether a call is one of the bind family or `reserve` (the calls the
spec says are the only table creators). -/
def isBindOrReserve {V : Type} : MOp V → Bool
  | .bind _ _ _ => true
  | .bindOrAssign _ _ _ => true
  | .bindUnchecked _ _ _ => true
  | .reserve _ => true
  | _ => false

section ManagerLemmas

variable {V : Type}

theorem find?_append_none {α : Type} {p : α → Bool} {l2 : List α} :
    ∀ {l1 : List α}, l1.find? p = none → (l1 ++ l2).find? p = l2.find? p := by
  intro l1
  induction l1 with
  | nil => intro _; rfl
  | cons a l ih =>
      intro h
      by_cases ha : p a = true
      · rw [List.find?_cons_of_pos _ ha] at h
        exact absurd h (by simp)
      · rw [List.find?_cons_of_neg _ (by simpa using ha)] at h
        rw [List.cons_append, List.find?_cons_of_neg _ (by simpa using ha)]
        exact ih h

theorem find?_append_some {α : Type} {p : α → Bool} {l2 : List α} {a : α} :
    ∀ {l1 : List α}, l1.find? p = some a → (l1 ++ l2).find? p = some a := by
  intro l1
  induction l1 with
  | nil => intro h; exact absurd h (by simp)
  | cons b l ih =>
      intro h
      by_cases hb : p b = true
      · rw [List.find?_cons_of_pos _ hb] at h
        rw [List.cons_append, List.find?_cons_of_pos _ hb]
        exact h
      · rw [List.find?_cons_of_neg _ (by simpa using hb)] at h
        rw [List.cons_append, List.find?_cons_of_neg _ (by simpa using hb)]
        exact ih h

theorem find?_map_keep {f : Nat × Nat × List (Nat × V) → Nat × Nat × List (Nat × V)}
    (hf : ∀ x, (f x).1 = x.1) (u : Nat) :
    ∀ l : List (Nat × Nat × List (Nat × V)),
      (l.map f).find? (fun p => p.1 == u)
        = (l.find? (fun p => p.1 == u)).map f := by
  intro l
  induction l with
  | nil => rfl
  | cons a l ih =>
      rw [List.map_cons]
      by_cases ha : a.1 = u
      · rw [List.find?_cons_of_pos _ (by simp [hf, ha]),
          List.find?_cons_of_pos _ (by simp [ha])]
        rfl
      · rw [List.find?_cons_of_neg _ (by simp [hf, ha]),
          List.find?_cons_of_neg _ (by simp [ha])]
        exact ih

theorem setTable_arg_key (t : Nat) (b : List (Nat × V))
    (x : Nat × Nat × List (Nat × V)) :
    ((if x.1 == t then (x.1, x.2.1, b) else x) :
      Nat × Nat × List (Nat × V)).1 = x.1 := by
  split <;> rfl

theorem setTable_arg_inst (t : Nat) (b : List (Nat × V))
    (x : Nat × Nat × List (Nat × V)) :
    ((if x.1 == t then (x.1, x.2.1, b) else x) :
      Nat × Nat × List (Nat × V)).2.1 = x.2.1 := by
  split <;> rfl

theorem setTable_find? (m : ComponentManager V) (t u : Nat)
    (b : List (Nat × V)) :
    (m.setTable t b).data_.find? (fun p => p.1 == u)
      = (m.data_.find? (fun p => p.1 == u)).map
          (fun p => if p.1 == t then (p.1, p.2.1, b) else p) := by
  exact find?_map_keep (setTable_arg_key t b) u m.data_

theorem setTable_instOf (m : ComponentManager V) (t u : Nat)
    (b : List (Nat × V)) :
    (m.setTable t b).instOf u = m.instOf u := by
  rw [ComponentManager.instOf, ComponentManager.instOf,
    ComponentManager.getEntry, ComponentManager.getEntry, setTable_find?]
  cases m.data_.find? (fun p => p.1 == u) with
  | none => rfl
  | some a =>
      simp only [Option.map_some']
      rw [setTable_arg_inst]

theorem setTable_getEntry_other (m : ComponentManager V) (t u : Nat)
    (b : List (Nat × V)) (h : u ≠ t) :
    (m.setTable t b).getEntry u = m.getEntry u := by
  rw [ComponentManager.getEntry, ComponentManager.getEntry, setTable_find?]
  cases hf : m.data_.find? (fun p => p.1 == u) with
  | none => rfl
  | some a =>
      have ha : a.1 = u := by
        have := List.find?_some hf
        simpa using this
      simp only [Option.map_some']
      rw [if_neg (by simp [ha, h])]

theorem setTable_tableOf_other (m : ComponentManager V) (t u : Nat)
    (b : List (Nat × V)) (h : u ≠ t) :
    (m.setTable t b).tableOf u = m.tableOf u := by
  rw [ComponentManager.tableOf, ComponentManager.tableOf,
    setTable_getEntry_other m t u b h]

theorem setTable_tableOf_self (m : ComponentManager V) (t : Nat)
    (b nb : List (Nat × V)) (i : Nat) (h : m.getEntry t = some (i, b)) :
    (m.setTable t nb).tableOf t = some nb := by
  rw [ComponentManager.tableOf, ComponentManager.getEntry, setTable_find?]
  rw [ComponentManager.getEntry] at h
  cases hf : m.data_.find? (fun p => p.1 == t) with
  | none => rw [hf] at h; exact absurd h (by simp)
  | some a =>
      have ha : a.1 = t := by
        have := List.find?_some hf
        simpa using this
      simp only [Option.map_some']
      rw [if_pos (by simp [ha])]

theorem setTable_tableKeys (m : ComponentManager V) (t : Nat)
    (b : List (Nat × V)) :
    tableKeys (m.setTable t b) = tableKeys m := by
  rw [tableKeys, tableKeys, ComponentManager.setTable]
  simp only
  rw [List.map_map]
  exact List.map_congr_left (fun x _ => setTable_arg_key t b x)

theorem goc_some (m : ComponentManager V) (t : Nat)
    (p : Nat × List (Nat × V)) (h : m.getEntry t = some p) :
    m.get_or_create_cont_ t = m := by
  simp only [ComponentManager.get_or_create_cont_, h]

theorem goc_none (m : ComponentManager V) (t : Nat)
    (h : m.getEntry t = none) :
    m.get_or_create_cont_ t
      = { m with data_ := m.data_ ++ [(t, m.nextInst, [])],
                 nextInst := m.nextInst + 1 } := by
  simp only [ComponentManager.get_or_create_cont_, h]

theorem goc_getEntry_other (m : ComponentManager V) (t u : Nat) (h : u ≠ t) :
    (m.get_or_create_cont_ t).getEntry u = m.getEntry u := by
  cases he : m.getEntry t with
  | some p => rw [goc_some m t p he]
  | none =>
      rw [goc_none m t he]
      rw [ComponentManager.getEntry, ComponentManager.getEntry]
      have hfe : m.data_.find? (fun p => p.1 == t) = none :=
        Option.map_eq_none'.mp he
      cases hf : m.data_.find? (fun p => p.1 == u) with
      | none =>
          rw [find?_append_none hf]
          rw [List.find?_cons_of_neg _ (by simp [Ne.symm h]), List.find?_nil]
      | some a => rw [find?_append_some hf]

theorem goc_getEntry_self_none (m : ComponentManager V) (t : Nat)
    (h : m.getEntry t = none) :
    (m.get_or_create_cont_ t).getEntry t = some (m.nextInst, []) := by
  rw [goc_none m t h]
  rw [ComponentManager.getEntry]
  have hfe : m.data_.find? (fun p => p.1 == t) = none :=
    Option.map_eq_none'.mp h
  rw [find?_append_none hfe]
  rw [List.find?_cons_of_pos _ (by simp)]
  rfl

theorem goc_instOf_mono (m : ComponentManager V) (u t i : Nat)
    (h : m.instOf t = some i) :
    (m.get_or_create_cont_ u).instOf t = some i := by
  by_cases hut : t = u
  · subst hut
    cases he : m.getEntry t with
    | some p => rw [goc_some m t p he]; exact h
    | none =>
        rw [ComponentManager.instOf, he] at h
        exact absurd h (by simp)
  · rw [ComponentManager.instOf, goc_getEntry_other m u t hut]
    exact h

theorem goc_instOf_isSome (m : ComponentManager V) (u t : Nat) :
    ((m.get_or_create_cont_ u).instOf t).isSome
      = ((m.instOf t).isSome || (u == t)) := by
  by_cases hut : u = t
  · subst hut
    cases he : m.getEntry u with
    | some p =>
        rw [goc_some m u p he]
        simp [ComponentManager.instOf, he]
    | none =>
        rw [ComponentManager.instOf, goc_getEntry_self_none m u he]
        simp
  · rw [ComponentManager.instOf, goc_getEntry_other m u t (fun he => hut he.symm)]
    rw [ComponentManager.instOf]
    simp [hut]

theorem foldl_goc_instOf_mono (t i : Nat) :
    ∀ (w : List Nat) (m : ComponentManager V), m.instOf t = some i →
      ((w.foldl (fun a u => a.get_or_create_cont_ u) m)).instOf t = some i := by
  intro w
  induction w with
  | nil => intro m h; exact h
  | cons u w ih =>
      intro m h
      rw [List.foldl_cons]
      exact ih _ (goc_instOf_mono m u t i h)

theorem foldl_goc_instOf_isSome (t : Nat) :
    ∀ (w : List Nat) (m : ComponentManager V),
      ((w.foldl (fun a u => a.get_or_create_cont_ u) m).instOf t).isSome
        = ((m.instOf t).isSome || w.contains t) := by
  intro w
  induction w with
  | nil => intro m; simp
  | cons u w ih =>
      intro m
      rw [List.foldl_cons, ih, goc_instOf_isSome]
      by_cases hut : u = t
      · subst hut
        simp
      · have h1 : (u == t) = false := by simp [hut]
        simp [List.contains_cons, hut, Ne.symm hut, h1]

theorem for_each_snd (m : ComponentManager V) (w : List Nat) :
    (m.for_each w).2 = m := by
  rw [ComponentManager.for_each]
  split <;> rfl

theorem goc_nodup (m : ComponentManager V) (u : Nat) (h : NodupKeys m) :
    NodupKeys (m.get_or_create_cont_ u) := by
  cases he : m.getEntry u with
  | some p => rw [goc_some m u p he]; exact h
  | none =>
      rw [goc_none m u he]
      rw [NodupKeys, tableKeys]
      rw [List.map_append]
      have hfe : m.data_.find? (fun p => p.1 == u) = none :=
        Option.map_eq_none'.mp he
      have hnot : u ∉ m.data_.map Prod.fst := by
        intro hmem
        rcases List.mem_map.mp hmem with ⟨p, hp, hp1⟩
        have := List.find?_eq_none.mp hfe p hp
        simp [hp1] at this
      rw [List.nodup_append]
      exact ⟨h, List.nodup_singleton u, by
        intro a ha hb
        simp at hb
        subst hb
        exact hnot ha⟩

theorem foldl_goc_nodup :
    ∀ (w : List Nat) (m : ComponentManager V), NodupKeys m →
      NodupKeys (w.foldl (fun a u => a.get_or_create_cont_ u) m) := by
  intro w
  induction w with
  | nil => intro m h; exact h
  | cons u w ih =>
      intro m h
      rw [List.foldl_cons]
      exact ih _ (goc_nodup m u h)

theorem mstep_instOf_some (m : ComponentManager V) (p : MOp V) (t i : Nat)
    (hop : p ≠ MOp.clearAll) (h : m.instOf t = some i) :
    (mstep m p).instOf t = some i := by
  cases p with
  | bind u e v =>
      rw [mstep]
      dsimp only [ComponentManager.emplace_component]
      rw [setTable_instOf]
      exact goc_instOf_mono m u t i h
  | bindOrAssign u e v =>
      rw [mstep]
      dsimp only [ComponentManager.bind_or_assign_component]
      rw [setTable_instOf]
      exact goc_instOf_mono m u t i h
  | bindUnchecked u e v =>
      rw [mstep]
      dsimp only [ComponentManager.emplace_component_unchecked]
      rw [setTable_instOf]
      exact goc_instOf_mono m u t i h
  | remove u e =>
      rw [mstep]
      cases ht : m.tableOf u with
      | none => simp only [ComponentManager.remove_component, ht]; exact h
      | some b =>
          simp only [ComponentManager.remove_component, ht]
          rw [setTable_instOf]
          exact h
  | clearType u =>
      rw [mstep]
      cases ht : m.tableOf u with
      | none => simp only [ComponentManager.erase_components_type, ht]; exact h
      | some b =>
          simp only [ComponentManager.erase_components_type, ht]
          rw [setTable_instOf]
          exact h
  | clearAll => exact absurd rfl hop
  | reserve u =>
      rw [mstep, ComponentManager.reserve_components]
      exact goc_instOf_mono m u t i h
  | getView w =>
      rw [mstep, ComponentManager.get_component_view]
      exact foldl_goc_instOf_mono t i _ m h
  | forEach w =>
      rw [mstep, for_each_snd]
      exact h
  | createEntity =>
      rw [mstep]
      exact h
  | destroyEntity e =>
      rw [mstep]
      exact h

theorem mstep_instOf_isSome (m : ComponentManager V) (p : MOp V) (t : Nat)
    (hop : p ≠ MOp.clearAll) :
    ((mstep m p).instOf t).isSome = ((m.instOf t).isSome || creates p t) := by
  cases p with
  | bind u e v =>
      rw [mstep]
      dsimp only [ComponentManager.emplace_component]
      rw [setTable_instOf, goc_instOf_isSome]
      rfl
  | bindOrAssign u e v =>
      rw [mstep]
      dsimp only [ComponentManager.bind_or_assign_component]
      rw [setTable_instOf, goc_instOf_isSome]
      rfl
  | bindUnchecked u e v =>
      rw [mstep]
      dsimp only [ComponentManager.emplace_component_unchecked]
      rw [setTable_instOf, goc_instOf_isSome]
      rfl
  | remove u e =>
      have hc : creates (MOp.remove (V := V) u e) t = false := rfl
      rw [mstep, hc, Bool.or_false]
      cases ht : m.tableOf u with
      | none => simp only [ComponentManager.remove_component, ht]
      | some b =>
          simp only [ComponentManager.remove_component, ht]
          rw [setTable_instOf]
  | clearType u =>
      have hc : creates (MOp.clearType (V := V) u) t = false := rfl
      rw [mstep, hc, Bool.or_false]
      cases ht : m.tableOf u with
      | none => simp only [ComponentManager.erase_components_type, ht]
      | some b =>
          simp only [ComponentManager.erase_components_type, ht]
          rw [setTable_instOf]
  | clearAll => exact absurd rfl hop
  | reserve u =>
      rw [mstep, ComponentManager.reserve_components, goc_instOf_isSome]
      rfl
  | getView w =>
      rw [mstep, ComponentManager.get_component_view, foldl_goc_instOf_isSome]
      rfl
  | forEach w =>
      have hc : creates (MOp.forEach (V := V) w) t = false := rfl
      rw [mstep, for_each_snd, hc, Bool.or_false]
  | createEntity =>
      have hc : creates (MOp.createEntity (V := V)) t = false := rfl
      rw [mstep, hc, Bool.or_false]
      rfl
  | destroyEntity e =>
      have hc : creates (MOp.destroyEntity (V := V) e) t = false := rfl
      rw [mstep, hc, Bool.or_false]
      rfl

theorem mstep_nodup (m : ComponentManager V) (p : MOp V)
    (h : NodupKeys m) : NodupKeys (mstep m p) := by
  cases p with
  | bind u e v =>
      rw [mstep]
      dsimp only [ComponentManager.emplace_component]
      rw [NodupKeys, setTable_tableKeys]
      exact goc_nodup m u h
  | bindOrAssign u e v =>
      rw [mstep]
      dsimp only [ComponentManager.bind_or_assign_component]
      rw [NodupKeys, setTable_tableKeys]
      exact goc_nodup m u h
  | bindUnchecked u e v =>
      rw [mstep]
      dsimp only [ComponentManager.emplace_component_unchecked]
      rw [NodupKeys, setTable_tableKeys]
      exact goc_nodup m u h
  | remove u e =>
      rw [mstep]
      cases ht : m.tableOf u with
      | none => simp only [ComponentManager.remove_component, ht]; exact h
      | some b =>
          simp only [ComponentManager.remove_component, ht]
          rw [NodupKeys, setTable_tableKeys]
          exact h
  | clearType u =>
      rw [mstep]
      cases ht : m.tableOf u with
      | none => simp only [ComponentManager.erase_components_type, ht]; exact h
      | some b =>
          simp only [ComponentManager.erase_components_type, ht]
          rw [NodupKeys, setTable_tableKeys]
          exact h
  | clearAll =>
      rw [mstep, ComponentManager.erase_components, NodupKeys, tableKeys]
      exact List.nodup_nil
  | reserve u =>
      rw [mstep, ComponentManager.reserve_components]
      exact goc_nodup m u h
  | getView w =>
      rw [mstep, ComponentManager.get_component_view]
      exact foldl_goc_nodup _ m h
  | forEach w =>
      rw [mstep, for_each_snd]
      exact h
  | createEntity =>
      rw [mstep]
      exact h
  | destroyEntity e =>
      rw [mstep]
      exact h

theorem clearAll_instOf (m : ComponentManager V) (t : Nat) :
    (m.erase_components).instOf t = none := rfl

theorem mrun_instOf_some (t i : Nat) :
    ∀ (o : List (MOp V)) (m : ComponentManager V), MOp.clearAll ∉ o →
      m.instOf t = some i → (mrun o m).instOf t = some i := by
  intro o
  induction o with
  | nil => intro m _ h; exact h
  | cons p o ih =>
      intro m hno h
      rw [mrun, List.foldl_cons]
      exact ih (mstep m p) (fun hmem => hno (List.mem_cons_of_mem p hmem))
        (mstep_instOf_some m p t i
          (fun he => hno (he ▸ List.mem_cons_self p o)) h)

theorem mrun_instOf_isSome (t : Nat) :
    ∀ (o : List (MOp V)) (m : ComponentManager V), MOp.clearAll ∉ o →
      ((mrun o m).instOf t).isSome
        = ((m.instOf t).isSome || o.any (fun p => creates p t)) := by
  intro o
  induction o with
  | nil => intro m _; simp [mrun]
  | cons p o ih =>
      intro m hno
      rw [mrun, List.foldl_cons]
      rw [← mrun]
      rw [ih (mstep m p) (fun hmem => hno (List.mem_cons_of_mem p hmem))]
      rw [mstep_instOf_isSome m p t (fun he => hno (he ▸ List.mem_cons_self p o))]
      rw [List.any_cons, Bool.or_assoc]

theorem mrun_nodup :
    ∀ (o : List (MOp V)) (m : ComponentManager V), NodupKeys m →
      NodupKeys (mrun o m) := by
  intro o
  induction o with
  | nil => intro m h; exact h
  | cons p o ih =>
      intro m h
      rw [mrun, List.foldl_cons]
      exact ih (mstep m p) (mstep_nodup m p h)

theorem insert_or_assign_val {k : Nat} {v : V} (l : List (Nat × V)) :
    (insert_or_assign k v l).2.1 = v := by
  rcases h : l.dropWhile (fun p : Nat × V => decide (p.1 < k)) with _ | ⟨q, rest⟩
  · simp [insert_or_assign, try_insert_impl_, h]
  · by_cases hq : q.1 = k
    · simp [insert_or_assign, try_insert_impl_, h, hq]
    · simp [insert_or_assign, try_insert_impl_, h, hq]

theorem sortedKeys_nodup {l : List (Nat × V)} (h : SortedKeys l) :
    (keysOf l).Nodup := by
  have hlt : List.Pairwise (· < ·) (l.map Prod.fst) := List.pairwise_map.mpr h
  exact List.Pairwise.imp Nat.ne_of_lt hlt

end ManagerLemmas

/-! ## Checked-operation sequences on one table (claim C2) -/

/-- A checked call against one `AssocSortedVector`: `emplace`/`insert`
(`bind_component` path), `insert_or_assign`, and `erase`. -/
inductive TOp (V : Type) where
  | empl (k : Nat) (v : V)
  | ins (k : Nat) (v : V)
  | insAssign (k : Nat) (v : V)
  | del (k : Nat)
deriving DecidableEq

/-- One checked call, keeping the table (results discarded). -/
def tstep {V : Type} (l : List (Nat × V)) : TOp V → List (Nat × V)
  | .empl k v => (emplace k v l).1
  | .ins k v => (insert k v l).1
  | .insAssign k v => (insert_or_assign k v l).1
  | .del k => (erase k l).1

/-- A sequence of checked calls against one table. -/
def trun {V : Type} (o : List (TOp V)) (l : List (Nat × V)) :
    List (Nat × V) :=
  o.foldl tstep l

/-- Claim C2.  Every checked insertion (`emplace`/`insert`,
`insert_or_assign`) and every `erase` preserves the strictly-increasing
key invariant, hence the key sequence stays duplicate-free after every
operation; consequently every checked call sequence started from the
empty table keeps the invariant. -/
theorem claim_C2 {V : Type} :
    (∀ (l : List (Nat × V)) (p : TOp V), SortedKeys l →
      SortedKeys (tstep l p) ∧ (keysOf (tstep l p)).Nodup)
    ∧ (∀ o : List (TOp V), SortedKeys (trun o ([] : List (Nat × V)))
        ∧ (keysOf (trun o ([] : List (Nat × V)))).Nodup) := by
  have hstep : ∀ (l : List (Nat × V)) (p : TOp V), SortedKeys l →
      SortedKeys (tstep l p) := by
    intro l p hs
    cases p with
    | empl k v => exact emplace_sorted hs
    | ins k v => exact insert_sorted hs
    | insAssign k v => exact insert_or_assign_sorted hs
    | del k => exact erase_sorted hs
  have hrun : ∀ (o : List (TOp V)) (l : List (Nat × V)), SortedKeys l →
      SortedKeys (trun o l) := by
    intro o
    induction o with
    | nil => intro l hs; exact hs
    | cons p o ih =>
        intro l hs
        rw [trun, List.foldl_cons]
        exact ih _ (hstep l p hs)
  exact ⟨fun l p hs => ⟨hstep l p hs, sortedKeys_nodup (hstep l p hs)⟩,
    fun o => ⟨hrun o [] (by simp [SortedKeys]),
      sortedKeys_nodup (hrun o [] (by simp [SortedKeys]))⟩⟩

/-- Witness for `claim_C2` at a concrete table and call sequence. -/
theorem claim_C2_witness :
    (SortedKeys (tstep [(1, 2)] (TOp.ins 0 9))
      ∧ (keysOf (tstep [(1, 2)] (TOp.ins 0 9))).Nodup)
    ∧ (SortedKeys (trun [TOp.empl 4 (4 : Nat), TOp.insAssign 4 7, TOp.del 4]
          ([] : List (Nat × Nat)))
      ∧ (keysOf (trun [TOp.empl 4 (4 : Nat), TOp.insAssign 4 7, TOp.del 4]
          ([] : List (Nat × Nat)))).Nodup) :=
  ⟨claim_C2.1 [(1, 2)] (TOp.ins 0 9) (by decide),
   claim_C2.2 [TOp.empl 4 (4 : Nat), TOp.insAssign 4 7, TOp.del 4]⟩

/-- Claim C3.  On an entity that already holds a component of the given
type (key `e.handle_` bound to `w` in the sorted table `b` for type index
`t`): `emplace_component` (the `bind_component` path) returns the old
value `w` with `inserted = false` and changes no table and no store entry;
`bind_or_assign_component` returns `v` with `inserted = false`, leaves the
key set of the type's table unchanged (the value at the key is now `v`),
leaves every other type's table unchanged, and adds or removes no store
entry. -/
theorem claim_C3 {V : Type} (m : ComponentManager V) (t : Nat) (e : Entity)
    (w v : V) (b : List (Nat × V))
    (hb : m.tableOf t = some b) (hs : SortedKeys b)
    (hmem : (e.handle_, w) ∈ b) :
    ((m.emplace_component t e v).1 = (w, false)
      ∧ (∀ u, (m.emplace_component t e v).2.tableOf u = m.tableOf u)
      ∧ tableKeys (m.emplace_component t e v).2 = tableKeys m)
    ∧ ((m.bind_or_assign_component t e v).1 = (v, false)
      ∧ find e.handle_
          (((m.bind_or_assign_component t e v).2.tableOf t).getD []) = some v
      ∧ keysOf (((m.bind_or_assign_component t e v).2.tableOf t).getD [])
          = keysOf b
      ∧ (∀ u, u ≠ t →
          (m.bind_or_assign_component t e v).2.tableOf u = m.tableOf u)
      ∧ tableKeys (m.bind_or_assign_component t e v).2 = tableKeys m) := by
  obtain ⟨i, hE⟩ : ∃ i, m.getEntry t = some (i, b) := by
    rw [ComponentManager.tableOf] at hb
    cases he : m.getEntry t with
    | none => rw [he] at hb; exact absurd hb (by simp)
    | some p =>
        rw [he] at hb
        refine ⟨p.1, ?_⟩
        have hp2 : p.2 = b := by simpa using hb
        rw [← hp2]
  have hgoc : m.get_or_create_cont_ t = m := goc_some m t (i, b) hE
  have hioa := insert_or_assign_existing (v := v) hs hmem
  have hEC : m.emplace_component t e v = ((w, false), m.setTable t b) := by
    simp only [ComponentManager.emplace_component]
    rw [hgoc, hb, Option.getD_some, emplace_existing hs hmem]
  have hBC : m.bind_or_assign_component t e v
      = ((v, false), m.setTable t (insert_or_assign e.handle_ v b).1) := by
    simp only [ComponentManager.bind_or_assign_component]
    rw [hgoc, hb, Option.getD_some]
    rw [Prod.ext_iff]
    refine ⟨?_, rfl⟩
    rw [Prod.ext_iff]
    exact ⟨insert_or_assign_val b, hioa.1⟩
  refine ⟨⟨?_, ?_, ?_⟩, ?_, ?_, ?_, ?_, ?_⟩
  · rw [hEC]
  · intro u
    rw [hEC]
    by_cases hu : u = t
    · subst hu
      rw [setTable_tableOf_self m u b b i hE, hb]
    · exact setTable_tableOf_other m t u b hu
  · rw [hEC]
    exact setTable_tableKeys m t b
  · rw [hBC]
  · rw [hBC]
    rw [setTable_tableOf_self m t b _ i hE, Option.getD_some]
    exact hioa.2.1
  · rw [hBC]
    rw [setTable_tableOf_self m t b _ i hE, Option.getD_some]
    exact hioa.2.2
  · intro u hu
    rw [hBC]
    exact setTable_tableOf_other m t u _ hu
  · rw [hBC]
    exact setTable_tableKeys m t _

/-- Witness for `claim_C3` at a concrete store. -/
theorem claim_C3_witness :
    ((({ data_ := [(3, 0, [(5, 10)])] } :
          ComponentManager Nat).emplace_component 3 ⟨5⟩ 42).1 = (10, false)
      ∧ (∀ u, (({ data_ := [(3, 0, [(5, 10)])] } :
          ComponentManager Nat).emplace_component 3 ⟨5⟩ 42).2.tableOf u
          = ({ data_ := [(3, 0, [(5, 10)])] } :
            ComponentManager Nat).tableOf u)
      ∧ tableKeys (({ data_ := [(3, 0, [(5, 10)])] } :
          ComponentManager Nat).emplace_component 3 ⟨5⟩ 42).2
          = tableKeys ({ data_ := [(3, 0, [(5, 10)])] } :
            ComponentManager Nat))
    ∧ ((({ data_ := [(3, 0, [(5, 10)])] } :
          ComponentManager Nat).bind_or_assign_component 3 ⟨5⟩ 42).1
          = (42, false)
      ∧ find 5 (((({ data_ := [(3, 0, [(5, 10)])] } :
          ComponentManager Nat).bind_or_assign_component 3 ⟨5⟩ 42).2.tableOf
            3).getD []) = some 42
      ∧ keysOf (((({ data_ := [(3, 0, [(5, 10)])] } :
          ComponentManager Nat).bind_or_assign_component 3 ⟨5⟩ 42).2.tableOf
            3).getD []) = keysOf [(5, 10)]
      ∧ (∀ u, u ≠ 3 →
          (({ data_ := [(3, 0, [(5, 10)])] } :
            ComponentManager Nat).bind_or_assign_component 3 ⟨5⟩ 42).2.tableOf u
            = ({ data_ := [(3, 0, [(5, 10)])] } :
              ComponentManager Nat).tableOf u)
      ∧ tableKeys (({ data_ := [(3, 0, [(5, 10)])] } :
          ComponentManager Nat).bind_or_assign_component 3 ⟨5⟩ 42).2
          = tableKeys ({ data_ := [(3, 0, [(5, 10)])] } :
            ComponentManager Nat)) :=
  claim_C3 { data_ := [(3, 0, [(5, 10)])] } 3 ⟨5⟩ 10 42 [(5, 10)]
    rfl (by decide) (by decide)

/-- Claim C4, as stated, is false: from a fresh store, a single
`get_component_view<>()` call — no bind, no reserve — creates a table (the
stray `int` table `get_or_create_cont_<int>()` allocates). -/
theorem claim_C4_counterexample :
    tableKeys (mrun [MOp.getView (V := Nat) []] {}) = [intTypeId]
    ∧ ([MOp.getView (V := Nat) []].all fun p => !isBindOrReserve p) = true := by
  exact ⟨by decide, by decide⟩

/-- Claim C4 (amended).  Tables are created lazily by the bind family,
`reserve_components`, and `get_component_view` (which also allocates the
`int` table); only the non-template `erase_components()` removes tables.
Precisely: (1) once a table for a type index exists, every call other than
clear-all keeps exactly that table instance; (2) from a fresh store and
clear-all-free call sequence, a table for `t` exists exactly when some
call in the sequence creates for `t` (`creates`); (3) every call keeps at
most one table per type index; (4) clear-all leaves no table. -/
theorem claim_C4_amended {V : Type} :
    (∀ (m : ComponentManager V) (o : List (MOp V)) (t i : Nat),
      MOp.clearAll ∉ o → m.instOf t = some i →
        (mrun o m).instOf t = some i)
    ∧ (∀ (o : List (MOp V)) (t : Nat), MOp.clearAll ∉ o →
        ((mrun o ({} : ComponentManager V)).instOf t).isSome
          = o.any (fun p => creates p t))
    ∧ (∀ (m : ComponentManager V) (o : List (MOp V)),
        NodupKeys m → NodupKeys (mrun o m))
    ∧ (∀ (m : ComponentManager V) (t : Nat),
        (m.erase_components).instOf t = none) := by
  refine ⟨fun m o t i hno h => mrun_instOf_some t i o m hno h,
    fun o t hno => ?_, fun m o h => mrun_nodup o m h,
    fun m t => clearAll_instOf m t⟩
  rw [mrun_instOf_isSome t o ({} : ComponentManager V) hno]
  have hinit : (({} : ComponentManager V).instOf t).isSome = false := rfl
  rw [hinit, Bool.false_or]

/-- Witness for `claim_C4_amended` at concrete stores and call
sequences. -/
theorem claim_C4_witness :
    ((mrun [MOp.reserve 3]
        ({ data_ := [(2, 0, [])], nextInst := 1 } :
          ComponentManager Nat)).instOf 2 = some 0)
    ∧ ((mrun [MOp.getView (V := Nat) []]
        ({} : ComponentManager Nat)).instOf 7).isSome
        = [MOp.getView (V := Nat) []].any (fun p => creates p 7)
    ∧ NodupKeys (mrun [MOp.bind 1 ⟨4⟩ (5 : Nat)] ({} : ComponentManager Nat))
    ∧ (({} : ComponentManager Nat).erase_components.instOf 0 = none) :=
  ⟨(claim_C4_amended (V := Nat)).1 { data_ := [(2, 0, [])], nextInst := 1 }
      [MOp.reserve 3] 2 0 (by decide) rfl,
   (claim_C4_amended (V := Nat)).2.1 [MOp.getView []] 7 (by decide),
   (claim_C4_amended (V := Nat)).2.2.1 {} [MOp.bind 1 ⟨4⟩ 5] List.nodup_nil,
   (claim_C4_amended (V := Nat)).2.2.2 {} 0⟩

/-- Claim C5.  When at least one requested type has no table, `for_each`
calls the callback zero times and leaves the store untouched — no table is
allocated as a side effect (it looks the tables up with `try_get_cont_`,
never `get_or_create_cont_`). -/
theorem claim_C5 {V : Type} (m : ComponentManager V) (w : List Nat)
    (t : Nat) (ht : t ∈ w) (hnone : m.tableOf t = none) :
    (m.for_each w).1 = [] ∧ (m.for_each w).2 = m
    ∧ tableKeys (m.for_each w).2 = tableKeys m := by
  have hcond : (w.map m.tableOf).all Option.isSome = false := by
    cases hx : (w.map m.tableOf).all Option.isSome with
    | false => rfl
    | true =>
        have hmem := List.all_eq_true.mp hx (m.tableOf t)
          (List.mem_map_of_mem m.tableOf ht)
        rw [hnone] at hmem
        exact absurd hmem (by simp)
  refine ⟨?_, for_each_snd m w, by rw [for_each_snd]⟩
  rw [ComponentManager.for_each,
    if_neg (by rw [hcond]; exact Bool.false_ne_true)]

/-- Witness for `claim_C5` at a fresh store. -/
theorem claim_C5_witness :
    (({} : ComponentManager Nat).for_each [5]).1 = []
    ∧ (({} : ComponentManager Nat).for_each [5]).2
        = ({} : ComponentManager Nat)
    ∧ tableKeys (({} : ComponentManager Nat).for_each [5]).2
        = tableKeys ({} : ComponentManager Nat) :=
  claim_C5 {} [5] 5 (by decide) rfl

/-- Claim C10.  `destroy_entity` returns `true` for every entity value —
including the default-constructed `Entity` (whose handle is the invalid
sentinel) and handles this manager never issued — because `handGen_` is
the `DefaultHandleGenerator`, the Linear variant, whose `destroy_handle`
is `return true;`. -/
theorem claim_C10 {V : Type} (m : ComponentManager V) (e : Entity) :
    (m.destroy_entity e).1 = true
    ∧ ({} : Entity).handle_ = get_invalid_handle_constant
    ∧ DefaultHandleGenerator = LinearHandleGenerator :=
  ⟨rfl, rfl, rfl⟩

/-! ## Type erasure: `MovableErasedType` / `ErasedType` / `OptimalErasedType`

Model of src/oki/util/oki_type_erasure.h.  An erased object's storage is
modelled abstractly as `Option Nat` (`some` = a live held value, `none` =
destroyed storage); a dispatch acts on the pair (self, other) and returns
the new pair.  Moves are modelled as transferring the value (the C++
moved-from object keeps an unspecified valid value, modelled as keeping
its value; pointer-swap `move_from` swaps). -/

/-- Model of `helper_::AnyErasedOperations` (oki_type_erasure.h lines
16–23). -/
inductive AnyErasedOperations where
  | copyConstrOp
  | copyAssignOp
  | moveConstrOp
  | moveAssignOp
  | destroyOp
deriving DecidableEq

/-- Model of `MovableErasedType::erased_ops_no_copy_<Type>` (lines
228–252): the `switch` handles only `MOVE_CONSTR`, `MOVE_ASSIGN` and
`DESTROY`; the two copy operations hit no `case` label and fall out of the
`switch` — the dispatch returns with both objects untouched and reports
nothing (its return type is `void`). -/
def erased_ops_no_copy_ (p : AnyErasedOperations) (s o : Option Nat) :
    Option Nat × Option Nat :=
  match p with
  | .moveConstrOp => (o, o)
  | .moveAssignOp => (o, s)
  | .destroyOp => (none, o)
  | .copyConstrOp => (s, o)
  | .copyAssignOp => (s, o)

/-- Model of `ErasedType::erased_ops_<Type>` (lines 348–385): all five
operations are handled; the copy operations copy `other`'s value into
`self`, leaving `other` untouched. -/
def erased_ops_ (p : AnyErasedOperations) (s o : Option Nat) :
    Option Nat × Option Nat :=
  match p with
  | .moveConstrOp => (o, o)
  | .moveAssignOp => (o, s)
  | .destroyOp => (none, o)
  | .copyConstrOp => (o, o)
  | .copyAssignOp => (o, o)

/-- The copyability traits of a payload type (`std::is_copy_assignable_v`
and `std::is_copy_constructible_v`). -/
structure TypeTraits where
  copyConstructible : Bool
  copyAssignable : Bool
deriving DecidableEq

/-- The selection condition of `OptimalErasedType` (lines 390–395): the
copyable holder `ErasedType` is chosen exactly when the payload is both
copy-assignable and copy-constructible; otherwise the move-only holder
`MovableErasedType` — which has no copy constructor, no copy assignment
and no `copy_from` member at all (they are compile-time absent, lines
43–64 declare only the move operations). -/
def usesCopyableHolder (r : TypeTraits) : Bool :=
  r.copyAssignable && r.copyConstructible

/-- The dispatch table `OptimalErasedType` installs (`erase_type` passes
`erased_ops_<Type>` on the copyable holder, line 336, and
`erased_ops_no_copy_<Type>` on the move-only holder, line 126). -/
def OptimalErasedType_ops (r : TypeTraits) :
    AnyErasedOperations → Option Nat → Option Nat → Option Nat × Option Nat :=
  if usesCopyableHolder r then erased_ops_ else erased_ops_no_copy_

/-- Modelled from the spec: the spec asserts that invoking copy on a
holder of a non-copyable type "fails with an InvalidOperation condition
(a loud logic error)".  No `InvalidOperation` (nor any error channel of
the erased operations) exists anywhere in src/; this inductive and the
outcome function below formalise the spec's asserted behavior so it can
be compared with the code. -/
inductive ErrorCond where
  | InvalidOperation
  | IllegalState
deriving DecidableEq

/-- Modelled from the spec: the copy outcome the spec asserts — `ok` on a
copyable holder, the `InvalidOperation` logic error on a non-copyable
one. -/
def spec_copy_outcome (r : TypeTraits) : Except ErrorCond Unit :=
  if usesCopyableHolder r then Except.ok () else
    Except.error ErrorCond.InvalidOperation

/-- Claim C9, as stated, is false: for a non-copyable payload the
move-only holder is selected and its dispatch, handed a copy operation,
silently does nothing — both objects are returned untouched and no error
of any kind is produced (there is no `InvalidOperation` in the code),
while the spec's asserted outcome is the `InvalidOperation` error. -/
theorem claim_C9_counterexample :
    usesCopyableHolder { copyConstructible := false, copyAssignable := false }
        = false
    ∧ OptimalErasedType_ops
        { copyConstructible := false, copyAssignable := false }
        = erased_ops_no_copy_
    ∧ erased_ops_no_copy_ AnyErasedOperations.copyConstrOp none (some 7)
        = (none, some 7)
    ∧ erased_ops_no_copy_ AnyErasedOperations.copyAssignOp (some 1) (some 7)
        = (some 1, some 7)
    ∧ spec_copy_outcome { copyConstructible := false, copyAssignable := false }
        = Except.error ErrorCond.InvalidOperation :=
  ⟨rfl, rfl, rfl, rfl, rfl⟩

/-- Claim C9 (amended).  For every non-copy-constructible payload the
`OptimalErasedType` alias selects the move-only holder, whose copy
constructor, copy assignment and `copy_from` member are compile-time
absent, and whose installed dispatch treats both erased copy operations
as silent no-ops (no data change, no error — truncation cannot happen
because nothing happens); move and destroy behave normally. -/
theorem claim_C9_amended (r : TypeTraits)
    (hc : r.copyConstructible = false) :
    usesCopyableHolder r = false
    ∧ OptimalErasedType_ops r = erased_ops_no_copy_
    ∧ (∀ s o, erased_ops_no_copy_ AnyErasedOperations.copyConstrOp s o
        = (s, o))
    ∧ (∀ s o, erased_ops_no_copy_ AnyErasedOperations.copyAssignOp s o
        = (s, o))
    ∧ (∀ s o, erased_ops_no_copy_ AnyErasedOperations.moveConstrOp s o
        = (o, o))
    ∧ (∀ s o, erased_ops_no_copy_ AnyErasedOperations.destroyOp s o
        = (none, o)) := by
  have hu : usesCopyableHolder r = false := by
    rw [usesCopyableHolder, hc, Bool.and_false]
  refine ⟨hu, ?_, fun s o => rfl, fun s o => rfl, fun s o => rfl,
    fun s o => rfl⟩
  rw [OptimalErasedType_ops, hu]
  rfl

/-- Witness for `claim_C9_amended` at a concrete non-copyable trait
pair. -/
theorem claim_C9_witness :
    usesCopyableHolder { copyConstructible := false, copyAssignable := true }
        = false
    ∧ OptimalErasedType_ops
        { copyConstructible := false, copyAssignable := true }
        = erased_ops_no_copy_
    ∧ (∀ s o, erased_ops_no_copy_ AnyErasedOperations.copyConstrOp s o
        = (s, o))
    ∧ (∀ s o, erased_ops_no_copy_ AnyErasedOperations.copyAssignOp s o
        = (s, o))
    ∧ (∀ s o, erased_ops_no_copy_ AnyErasedOperations.moveConstrOp s o
        = (o, o))
    ∧ (∀ s o, erased_ops_no_copy_ AnyErasedOperations.destroyOp s o
        = (none, o)) :=
  claim_C9_amended { copyConstructible := false, copyAssignable := true } rfl

/-! ## Witness data for the intersection claim -/

/-- The first table of the worked scenario in the spec (keys
1, 3, 4, 5, 8, 9, 10). -/
def tableA : List (Nat × Nat) :=
  [(1, 0), (3, 0), (4, 0), (5, 0), (8, 0), (9, 0), (10, 0)]

/-- The second table of the worked scenario in the spec (keys
2, 3, 4, 7, 8, 9). -/
def tableB : List (Nat × Nat) :=
  [(2, 0), (3, 0), (4, 0), (7, 0), (8, 0), (9, 0)]

/-- Witness for `variadic_set_intersection_correct` at the spec's worked
scenario (the common keys are 3, 4, 8, 9). -/
theorem variadic_set_intersection_correct_witness :
    (∀ y, y ∈ (variadic_set_intersection [tableA, tableB]).map keyOfRow ↔
      ∀ c ∈ [tableA, tableB], y ∈ keysOf c)
    ∧ List.Pairwise (· < ·)
        ((variadic_set_intersection [tableA, tableB]).map keyOfRow)
    ∧ ∀ r ∈ variadic_set_intersection [tableA, tableB],
        r.length = [tableA, tableB].length ∧ ∀ x ∈ r, x.1 = keyOfRow r :=
  variadic_set_intersection_correct [tableA, tableB] (by decide) (by decide)

end Oki
